import Mathlib

/-!
Verification of the SketchSphere stroke-recognition core
(client service MinimalAIShapeRecognition, seven-class variant).

The JavaScript source is embedded shallowly: points are pairs of reals,
Math.hypot and Math.atan2 become Real.sqrt and Complex.arg, the number
fields that the source uses as 0/1 flags become Bool with an explicit
numeric coercion, and the corner counter (an integer in the source)
becomes a natural number.  Every definition follows the corresponding
source function line by line; comments mark the few places where a
loop is rendered as a fold or where integer-valued JS expressions
(Math.round of an integer count) simplify.
-/

noncomputable section
open Classical

/-- A 2D point, as the [x, y] pairs the whiteboard hands to the recognizer. -/
abbrev Point : Type := ℝ × ℝ

/-- Math.hypot on two coordinates. -/
def jsHypot (x y : ℝ) : ℝ := Real.sqrt (x ^ 2 + y ^ 2)

/-- Euclidean distance between two points, ptDist a b = Math.hypot (b-a). -/
def ptDist (a b : Point) : ℝ := jsHypot (b.1 - a.1) (b.2 - a.2)

/-- Math.atan2(y, x): the principal argument of the complex number x + y i,
in the interval (-pi, pi]. -/
def jsAtan2 (y x : ℝ) : ℝ := Complex.arg ⟨x, y⟩

/-- Math.sign as a real number. -/
def jsSign (x : ℝ) : ℝ := if 0 < x then 1 else if x < 0 then -1 else 0

/-- Math.min(...xs) over a spread list; the source only applies it to
nonempty lists, the empty case is given an arbitrary value. -/
def jsMinList : List ℝ → ℝ
  | [] => 0
  | x :: xs => xs.foldl min x

/-- Math.max(...xs) over a spread list (nonempty at every call site). -/
def jsMaxList : List ℝ → ℝ
  | [] => 0
  | x :: xs => xs.foldl max x

/-- Array.reduce((a, b) => a + b, 0). -/
def jsSum (l : List ℝ) : ℝ := l.foldl (· + ·) 0

/-- Numeric value of the 0/1 flags the source stores in feature records. -/
def bnum (b : Bool) : ℝ := if b then 1 else 0

/-- The loop body of the duplicate-point cleaner: keep a candidate only if
it is more than 2 units from the last kept point. -/
def cleanGo (last : Point) : List Point → List Point
  | [] => []
  | q :: rest => if 2 < ptDist last q then q :: cleanGo q rest else cleanGo last rest

/-- Point Cleaner: cleanPoints starts from the first raw point and keeps
each later point only when it is more than 2 units from the last kept one. -/
def cleanPoints : List Point → List Point
  | [] => []
  | p :: rest => p :: cleanGo p rest

/-- Minimum x coordinate of a point list (Math.min over the x map). -/
def minXOf (l : List Point) : ℝ := jsMinList (l.map Prod.fst)

/-- Maximum x coordinate of a point list. -/
def maxXOf (l : List Point) : ℝ := jsMaxList (l.map Prod.fst)

/-- Minimum y coordinate of a point list. -/
def minYOf (l : List Point) : ℝ := jsMinList (l.map Prod.snd)

/-- Maximum y coordinate of a point list. -/
def maxYOf (l : List Point) : ℝ := jsMaxList (l.map Prod.snd)

/-- Bounding-box width of the cleaned points. -/
def widthOf (l : List Point) : ℝ := maxXOf l - minXOf l

/-- Bounding-box height of the cleaned points. -/
def heightOf (l : List Point) : ℝ := maxYOf l - minYOf l

/-- Distance between the first and last cleaned point. -/
def startEndDistOf (l : List Point) : ℝ :=
  ptDist (l.getD (l.length - 1) (0, 0)) (l.getD 0 (0, 0))

/-- Closure test: start and end closer than 0.15 of the smaller bounding-box
side (the source stores 1/0, embedded as Bool). -/
def isClosedOf (l : List Point) : Bool :=
  decide (startEndDistOf l < min (widthOf l) (heightOf l) * 0.15)

/-- One smoothing pass: each point is replaced by a 0.25/0.5/0.25 average
with its neighbours two positions away; indices wrap modulo the length
when the stroke is closed, and clamp at the ends when open.  The source
writes the wrapped index as (i - 2 + n) % n, which for 0 <= i < n equals
(i + n - 2) % n used here; the open case Math.max(0, i - 2) is truncated
natural subtraction. -/
def smoothPass (closed : Bool) (l : List Point) : List Point :=
  (List.range l.length).map fun i =>
    let n := l.length
    let p := l.getD i (0, 0)
    let prev := if closed then l.getD ((i + n - 2) % n) (0, 0) else l.getD (i - 2) (0, 0)
    let next := if closed then l.getD ((i + 2) % n) (0, 0) else l.getD (min (n - 1) (i + 2)) (0, 0)
    (prev.1 * 0.25 + p.1 * 0.5 + next.1 * 0.25, prev.2 * 0.25 + p.2 * 0.5 + next.2 * 0.25)

/-- The source runs two smoothing passes over the cleaned points. -/
def smoothTwice (closed : Bool) (l : List Point) : List Point :=
  smoothPass closed (smoothPass closed l)

/-- Total length of the polyline through a point list. -/
def pathLength : List Point → ℝ
  | a :: b :: rest => ptDist a b + pathLength (b :: rest)
  | _ => 0

/-- The while-loop normalisation of an angle difference into [-pi, pi].
Every call site feeds a difference of two principal arguments, which lies
in (-2 pi, 2 pi), so the loops run at most once and equal this conditional. -/
def normAngle (d : ℝ) : ℝ :=
  if Real.pi < d then d - 2 * Real.pi
  else if d < -Real.pi then d + 2 * Real.pi
  else d

/-- Accumulator of the corner-detection loop: the counter and the two
parallel arrays the source pushes onto. -/
structure CornerState where
  corners : ℕ
  cornerAngles : List ℝ
  cornerIndices : List ℕ

/-- The incoming (i - lookahead -> i) and outgoing (i -> (i + lookahead) % n)
segment vectors at candidate index i of the smoothed sequence. -/
def cornerVecs (sm : List Point) (n la i : ℕ) : Point × Point :=
  (((sm.getD i (0, 0)).1 - (sm.getD (i - la) (0, 0)).1,
    (sm.getD i (0, 0)).2 - (sm.getD (i - la) (0, 0)).2),
   ((sm.getD ((i + la) % n) (0, 0)).1 - (sm.getD i (0, 0)).1,
    (sm.getD ((i + la) % n) (0, 0)).2 - (sm.getD i (0, 0)).2))

/-- Absolute normalised turning angle at candidate index i. -/
def turnAngle (sm : List Point) (n la i : ℕ) : ℝ :=
  let v := cornerVecs sm n la i
  |normAngle (jsAtan2 v.2.2 v.2.1 - jsAtan2 v.1.2 v.1.1)|

/-- Body of the corner-detection loop: skip short segments, accept a turn
whose absolute normalised angle is strictly between pi/4 and 3 pi/4, and
drop it again when it is within min(width, height)/6 of an accepted corner. -/
def cornerStep (sm : List Point) (n la : ℕ) (mwh : ℝ) (st : CornerState) (i : ℕ) :
    CornerState :=
  let v := cornerVecs sm n la i
  let dist1 := jsHypot v.1.1 v.1.2
  let dist2 := jsHypot v.2.1 v.2.2
  if dist1 < 5 ∨ dist2 < 5 then st
  else
    let angle := turnAngle sm n la i
    if Real.pi / 4 < angle ∧ angle < 3 * Real.pi / 4 then
      if ∀ idx ∈ st.cornerIndices,
          ¬ (ptDist (sm.getD idx (0, 0)) (sm.getD i (0, 0)) < mwh / 6) then
        ⟨st.corners + 1, st.cornerAngles ++ [angle], st.cornerIndices ++ [i]⟩
      else st
    else st

/-- Scale-adaptive lookahead window, max(2, floor(n / 20)). -/
def cornerLookahead (n : ℕ) : ℕ := max 2 (n / 20)

/-- Candidate indices of the corner loop: for (i = lookahead;
i < endLimit - lookahead; i++) with endLimit = n when closed, n - 1 when
open.  Natural subtraction makes the list empty exactly when the JS loop
body never runs. -/
def cornerCandidates (n : ℕ) (closed : Bool) : List ℕ :=
  let la := cornerLookahead n
  let endLimit := if closed then n else n - 1
  List.range' la (endLimit - la - la)

/-- The full corner-detection loop over the smoothed points. -/
def cornerScan (sm : List Point) (closed : Bool) (mwh : ℝ) : CornerState :=
  (cornerCandidates sm.length closed).foldl
    (cornerStep sm sm.length (cornerLookahead sm.length) mwh) ⟨0, [], []⟩

/-- Cross product of the edge vectors (b - a) and (c - b) at position i of
the corner-vertex cycle. -/
def crossAt (verts : List Point) (m i : ℕ) : ℝ :=
  let a := verts.getD i (0, 0)
  let b := verts.getD ((i + 1) % m) (0, 0)
  let c := verts.getD ((i + 2) % m) (0, 0)
  (b.1 - a.1) * (c.2 - b.2) - (b.2 - a.2) * (c.1 - b.1)

/-- All consecutive-triple cross products around the corner-vertex cycle. -/
def crossList (verts : List Point) : List ℝ :=
  (List.range verts.length).map (crossAt verts verts.length)

/-- One step of the convexity loop: record the first nonzero sign, and clear
the convexity flag when a later nonzero sign disagrees with it. -/
def convexFold (st : ℝ × Bool) (cr : ℝ) : ℝ × Bool :=
  let s := jsSign cr
  if st.1 = 0 then (s, st.2)
  else if s ≠ 0 ∧ s ≠ st.1 then (st.1, false)
  else st

/-- Convexity flag computed from the corner vertices (the source keeps it in
the same loop as the right-angle counter; the two accumulators are
independent, so they are defined separately here). -/
def isConvexOf (verts : List Point) : Bool :=
  ((crossList verts).foldl convexFold (0, true)).2

/-- The right-angle test at position i of the corner-vertex cycle:
both edges nonzero and |cosine| below 0.2. -/
def raCondAt (verts : List Point) (m i : ℕ) : Prop :=
  let a := verts.getD i (0, 0)
  let b := verts.getD ((i + 1) % m) (0, 0)
  let c := verts.getD ((i + 2) % m) (0, 0)
  let abx := b.1 - a.1
  let aby := b.2 - a.2
  let bcx := c.1 - b.1
  let bcy := c.2 - b.2
  let mag1 := jsHypot abx aby
  let mag2 := jsHypot bcx bcy
  0 < mag1 ∧ 0 < mag2 ∧ |(abx * bcx + aby * bcy) / (mag1 * mag2)| < 0.2

/-- Number of near-right-angle corner triples. -/
def raCount (verts : List Point) : ℕ :=
  (List.range verts.length).countP fun i => decide (raCondAt verts verts.length i)

/-- rightAngleScore = right-angle counter / number of corner vertices. -/
def rightAngleScoreOf (verts : List Point) : ℝ :=
  (raCount verts : ℝ) / (verts.length : ℝ)

/-- Mean absolute deviation of the smoothed points from the average radius
around the bounding-box centre. -/
def radiusVarianceOf (sm : List Point) (cX cY avgR : ℝ) : ℝ :=
  jsSum (sm.map fun p => |jsHypot (p.1 - cX) (p.2 - cY) - avgR|) / (sm.length : ℝ)

/-- The Feature Record returned by extractFeatures, with the same fields in
the same roles as the source object.  The corner counter is an integer in
the source (it is only ever incremented), so corners is a natural number
and the exactCorners = Math.round(corners) of the classifier is the
counter itself. -/
structure Features where
  width : ℝ
  height : ℝ
  aspect : ℝ
  isClosed : Bool
  straightness : ℝ
  squareness : ℝ
  minX : ℝ
  minY : ℝ
  maxX : ℝ
  maxY : ℝ
  corners : ℕ
  circularity : ℝ
  cornerAngles : List ℝ
  diagonal : ℝ
  isConvex : Bool
  rightAngleScore : ℝ
  startX : ℝ
  startY : ℝ
  endX : ℝ
  endY : ℝ

/-- The smoothed sequence derived from the cleaned points. -/
def smoothedOfClean (clean : List Point) : List Point :=
  smoothTwice (isClosedOf clean) clean

/-- The corner-loop result on the smoothed points of a cleaned stroke. -/
def scanOfClean (clean : List Point) : CornerState :=
  cornerScan (smoothedOfClean clean) (isClosedOf clean)
    (min (widthOf clean) (heightOf clean))

/-- The smoothed positions of the accepted corner indices. -/
def vertsOfClean (clean : List Point) : List Point :=
  (scanOfClean clean).cornerIndices.map fun i => (smoothedOfClean clean).getD i (0, 0)

/-- Straight-line distance between the smoothed endpoints. -/
def sdOfClean (clean : List Point) : ℝ :=
  ptDist ((smoothedOfClean clean).getD 0 (0, 0))
    ((smoothedOfClean clean).getD ((smoothedOfClean clean).length - 1) (0, 0))

/-- extractFeatures: the full feature-extraction pipeline with its three
fail-fast gates (too few raw points, too few cleaned points, degenerate
closed bounding box).  The let-bound intermediates of the source are the
named stage functions above, applied to the cleaned points. -/
def extractFeatures (points : List Point) : Option Features :=
  if points.length < 15 then none
  else
    let clean := cleanPoints points
    if clean.length < 10 then none
    else
      if isClosedOf clean = true ∧ (widthOf clean < 15 ∨ heightOf clean < 15) then none
      else
        some
          { width := widthOf clean
            height := heightOf clean
            aspect := max (widthOf clean) (heightOf clean) /
              max 1 (min (widthOf clean) (heightOf clean))
            isClosed := isClosedOf clean
            straightness :=
              if 0 < sdOfClean clean then
                pathLength (smoothedOfClean clean) / sdOfClean clean
              else 1
            squareness := 1 - |widthOf clean - heightOf clean| /
              max (widthOf clean) (heightOf clean)
            minX := minXOf clean
            minY := minYOf clean
            maxX := maxXOf clean
            maxY := maxYOf clean
            corners := (scanOfClean clean).corners
            circularity :=
              if isClosedOf clean = true ∧ 0 < (widthOf clean + heightOf clean) / 4 then
                1 - radiusVarianceOf (smoothedOfClean clean)
                  ((minXOf clean + maxXOf clean) / 2) ((minYOf clean + maxYOf clean) / 2)
                  ((widthOf clean + heightOf clean) / 4) /
                  ((widthOf clean + heightOf clean) / 4)
              else 0
            cornerAngles := (scanOfClean clean).cornerAngles
            diagonal := jsHypot (widthOf clean) (heightOf clean)
            isConvex :=
              if isClosedOf clean = true ∧ 3 ≤ (scanOfClean clean).cornerIndices.length
              then isConvexOf (vertsOfClean clean)
              else true
            rightAngleScore :=
              if isClosedOf clean = true ∧ 3 ≤ (scanOfClean clean).cornerIndices.length
              then rightAngleScoreOf (vertsOfClean clean)
              else 0
            startX := ((smoothedOfClean clean).getD 0 (0, 0)).1
            startY := ((smoothedOfClean clean).getD 0 (0, 0)).2
            endX := ((smoothedOfClean clean).getD ((smoothedOfClean clean).length - 1) (0, 0)).1
            endY := ((smoothedOfClean clean).getD ((smoothedOfClean clean).length - 1) (0, 0)).2 }

/-- Linear score of the line class. -/
def zLine (f : Features) : ℝ :=
  3.0 * (f.aspect - 1) + 2.0 * (2.5 - min f.straightness 3) +
    (if f.isClosed then -3.0 else 2.0) - 1.5 * (f.corners : ℝ) - 2.5 * f.circularity

/-- Linear score of the circle class. -/
def zCircle (f : Features) : ℝ :=
  1.8 * bnum f.isClosed + 2.5 * f.circularity + 0.8 * f.squareness -
    0.8 * (f.aspect - 1) - 5.0 * max 0 (f.corners : ℝ) - 0.8 * |(f.corners : ℝ)| -
    (if 1 < f.corners then -3.0 else 0)

/-- Linear score of the triangle class. -/
def zTriangle (f : Features) : ℝ :=
  2.2 * bnum f.isClosed + (if f.corners = 3 then 8.0 else 0) -
    5.0 * |3 - (f.corners : ℝ)| - 2.0 * f.circularity - 1.0 * f.squareness +
    0.5 * (if f.isConvex then 1 else -1)

/-- Linear score of the square class. -/
def zSquare (f : Features) : ℝ :=
  1.5 * bnum f.isClosed + (if f.corners = 4 then 3.5 else 0) + 3.0 * f.squareness +
    (if f.aspect ≤ 1.2 then 3.0 * (1 - |f.aspect - 1|) else -3.0) -
    3.0 * f.circularity + 1.5 * f.rightAngleScore +
    0.5 * (if f.isConvex then 1 else -1)

/-- Linear score of the rectangle class. -/
def zRect (f : Features) : ℝ :=
  1.5 * bnum f.isClosed + (if f.corners = 4 then 3.5 else 0) +
    (if f.squareness < 0.8 then 2.0 else -2.0) +
    (if 1.3 < f.aspect then 2.0 * min (f.aspect - 1) 3 else -3.0) -
    3.0 * f.circularity + 1.5 * f.rightAngleScore +
    0.5 * (if f.isConvex then 1 else -1)

/-- Linear score of the hexagon class. -/
def zHexagon (f : Features) : ℝ :=
  1.5 * bnum f.isClosed + (if f.corners = 6 then 4.5 else 0) -
    3.0 * |6 - (f.corners : ℝ)| + 0.5 * f.circularity - 0.5 * |f.aspect - 1|

/-- Linear score of the pentagon class. -/
def zPentagon (f : Features) : ℝ :=
  1.5 * bnum f.isClosed + (if f.corners = 5 then 4.5 else 0) -
    3.0 * |5 - (f.corners : ℝ)| + 0.5 * f.circularity - 0.5 * |f.aspect - 1|

/-- The logit vector in the order of the class list
[line, circle, rectangle, square, triangle, hexagon, pentagon]. -/
def logits (f : Features) : List ℝ :=
  [zLine f, zCircle f, zRect f, zSquare f, zTriangle f, zHexagon f, zPentagon f]

/-- Max-shifted softmax with the 1e-8 floor on the normalising sum. -/
def softmaxProbs (zs : List ℝ) : List ℝ :=
  let maxZ := jsMaxList zs
  let exps := zs.map fun z => Real.exp (z - maxZ)
  let s := jsSum exps
  exps.map fun e => e / max 1e-8 s

/-- predictProbs: softmax over the class scores, rejected entirely when the
best probability is below the 0.6 confidence gate. -/
def predictProbs (f : Features) : Option (List ℝ) :=
  if jsMaxList (softmaxProbs (logits f)) < 0.6 then none
  else some (softmaxProbs (logits f))

/-- The canonical shape objects produced by the recognizer. -/
inductive Shape where
  | line (pts : List ℝ)
  | circle (x y radius : ℝ)
  | square (x y side : ℝ)
  | triangle (pts : List ℝ)
  | hexagon (pts : List ℝ)
  | pentagon (pts : List ℝ)
  | rectangle (x y width height : ℝ)

/-- The type tag carried by a canonical shape object. -/
def shapeType : Shape → String
  | .line _ => "line"
  | .circle _ _ _ => "circle"
  | .square _ _ _ => "square"
  | .triangle _ => "triangle"
  | .hexagon _ => "hexagon"
  | .pentagon _ => "pentagon"
  | .rectangle _ _ _ _ => "rectangle"

/-- The flat vertex list of a regular polygon with k vertices, radius r and
angular offset off around (cx, cy), pushed as x then y per vertex. -/
def polyPoints (k : ℕ) (cx cy r off : ℝ) : List ℝ :=
  ((List.range k).map fun i =>
    [cx + r * Real.cos (i * (2 * Real.pi) / k + off),
     cy + r * Real.sin (i * (2 * Real.pi) / k + off)]).flatten

/-- The result object of recognizeShape. -/
structure RecResult where
  type : String
  confidence : ℝ
  features : Option Shape

/-- The JS null-coalescing a || b on nullable shape values. -/
def jsOr (a b : Option Shape) : Option Shape :=
  match a with
  | some s => some s
  | none => b

/-- The fixed class list of the classifier. -/
def shapeClasses : List String :=
  ["line", "circle", "rectangle", "square", "triangle", "hexagon", "pentagon"]

/-- Array.indexOf for real lists; the source only calls it on an element of
the list, where the result is the index of the first occurrence. -/
def jsIndexOf (l : List ℝ) (a : ℝ) : ℕ :=
  match l with
  | [] => 0
  | x :: xs => if x = a then 0 else jsIndexOf xs a + 1

/-- convertToShape: re-extract the features and build the idealized
primitive for the given class label; any unknown label falls through to
the rectangle branch, exactly as in the source. -/
def convertToShape (points : List Point) (ty : String) : Option Shape :=
  match extractFeatures points with
  | none => none
  | some f =>
    let centerX := f.minX + f.width / 2
    let centerY := f.minY + f.height / 2
    let avgRadius := min f.width f.height / 2
    if ty = "line" then some (.line [f.startX, f.startY, f.endX, f.endY])
    else if ty = "circle" then some (.circle centerX centerY avgRadius)
    else if ty = "square" then
      some (.square (f.minX + (f.width - min f.width f.height) / 2)
        (f.minY + (f.height - min f.width f.height) / 2) (min f.width f.height))
    else if ty = "triangle" then
      some (.triangle [f.minX, f.maxY, f.maxX, f.maxY, (f.minX + f.maxX) / 2, f.minY])
    else if ty = "hexagon" then
      some (.hexagon (polyPoints 6 centerX centerY (min f.width f.height / 2) 0))
    else if ty = "pentagon" then
      some (.pentagon (polyPoints 5 centerX centerY (min f.width f.height / 2)
        (-(Real.pi / 2))))
    else some (.rectangle f.minX f.minY f.width f.height)

/-- heuristicRecognize: the ordered rule-based fallback.  The nested
4-corner block of the source (an outer corner/circularity test around the
square and rectangle cases, falling through when neither matches) is
flattened into two guarded branches with the same semantics. -/
def heuristicRecognize (points : List Point) : Option Shape :=
  match extractFeatures points with
  | none => none
  | some f =>
    let centerX := f.minX + f.width / 2
    let centerY := f.minY + f.height / 2
    if f.isClosed = false ∧ 4 < f.aspect ∧ f.straightness < 1.5 ∧ f.corners < 2 then
      some (.line [f.startX, f.startY, f.endX, f.endY])
    else if f.isClosed = true then
      if f.corners = 3 ∧ f.circularity < 0.5 ∧ f.isConvex = true then
        some (.triangle [f.minX, f.maxY, f.maxX, f.maxY, (f.minX + f.maxX) / 2, f.minY])
      else if f.corners = 4 ∧ f.circularity < 0.4 ∧ 0.6 < f.rightAngleScore ∧
          f.aspect ≤ 1.2 ∧ 0.9 < f.squareness then
        some (.square (f.minX + (f.width - min f.width f.height) / 2)
          (f.minY + (f.height - min f.width f.height) / 2) (min f.width f.height))
      else if f.corners = 4 ∧ f.circularity < 0.4 ∧ 0.6 < f.rightAngleScore ∧
          (1.3 < f.aspect ∨ f.squareness < 0.8) then
        some (.rectangle f.minX f.minY f.width f.height)
      else if f.corners = 5 ∧ f.circularity < 0.8 ∧ f.isConvex = true then
        some (.pentagon (polyPoints 5 centerX centerY (min f.width f.height / 2)
          (-(Real.pi / 2))))
      else if f.corners = 6 ∧ f.circularity < 0.8 ∧ f.isConvex = true then
        some (.hexagon (polyPoints 6 centerX centerY (min f.width f.height / 2) 0))
      else if 0.85 < f.circularity ∧ f.corners < 2 then
        some (.circle centerX centerY (min f.width f.height / 2))
      else none
    else none

/-- The heuristic-fallback result of recognizeShape: a matched shape is
wrapped with fixed confidence 0.5, no match stays null. -/
def heurResult (points : List Point) : Option RecResult :=
  (heuristicRecognize points).map fun h => ⟨shapeType h, 0.5, some h⟩

/-- recognizeShape with the isReady flag of the service instance passed
explicitly.  The source let-binds idx = probs.indexOf(max) and
type = shapeClasses[idx]; both are inlined here. -/
def recognizeShape (ready : Bool) (points : List Point) : Option RecResult :=
  if ready = false then heurResult points
  else
    match extractFeatures points with
    | none => heurResult points
    | some f =>
      match predictProbs f with
      | none => heurResult points
      | some probs =>
        some ⟨shapeClasses.getD (jsIndexOf probs (jsMaxList probs)) "",
          probs.getD (jsIndexOf probs (jsMaxList probs)) 0,
          jsOr
            (convertToShape points
              (shapeClasses.getD (jsIndexOf probs (jsMaxList probs)) ""))
            (heuristicRecognize points)⟩

/-- The recognition pipeline observed together with the ambient stream of
Math.random values the JS environment offers: the seven-class source never
samples it, so the stream is threaded through unused.  This is the shape
in which determinism of the pipeline is stated. -/
def recognizePipeline (rnd : ℕ → ℝ) (ready : Bool) (points : List Point) :
    Option Features × Option (List ℝ) × Option RecResult :=
  (extractFeatures points, (extractFeatures points).bind predictProbs,
    recognizeShape ready points)

/-- Modelled from part_001 (the historical three-class variant): its
predictProbs adds (Math.random() - 0.5) * 0.8 to each logit; noise k is
the value of the k-th Math.random() call. -/
def noisyLogitsV1 (noise : Fin 3 → ℝ) (aspect straightness squareness : ℝ)
    (closed : Bool) : List ℝ :=
  [1.2 * (aspect - 1) + 1.0 * (2 - min straightness 3) +
      (if closed then -0.8 else 0.6) + (noise 0 - 0.5) * 0.8,
   1.0 * bnum closed + 1.1 * squareness - 0.3 * (aspect - 1) + (noise 1 - 0.5) * 0.8,
   0.8 * bnum closed + 0.6 * squareness + 0.2 * (aspect - 1) + (noise 2 - 0.5) * 0.8]

/-! ### Elementary facts about the numeric primitives -/

theorem jsHypot_nonneg (x y : ℝ) : 0 ≤ jsHypot x y := Real.sqrt_nonneg _

theorem jsHypot_lt_iff {c : ℝ} (hc : 0 < c) (x y : ℝ) :
    jsHypot x y < c ↔ x ^ 2 + y ^ 2 < c ^ 2 := Real.sqrt_lt' hc

theorem lt_jsHypot_iff {c : ℝ} (hc : 0 ≤ c) (x y : ℝ) :
    c < jsHypot x y ↔ c ^ 2 < x ^ 2 + y ^ 2 := Real.lt_sqrt hc

theorem le_jsHypot_iff {c : ℝ} (hc : 0 < c) (x y : ℝ) :
    c ≤ jsHypot x y ↔ c ^ 2 ≤ x ^ 2 + y ^ 2 := Real.le_sqrt' hc

theorem jsHypot_pos_iff (x y : ℝ) : 0 < jsHypot x y ↔ 0 < x ^ 2 + y ^ 2 :=
  Real.sqrt_pos

theorem jsHypot_zero_right (x : ℝ) : jsHypot x 0 = |x| := by
  simp [jsHypot, Real.sqrt_sq_eq_abs]

theorem jsHypot_zero_left (y : ℝ) : jsHypot 0 y = |y| := by
  simp [jsHypot, Real.sqrt_sq_eq_abs]

theorem ptDist_mk (a b c d : ℝ) : ptDist (a, b) (c, d) = jsHypot (c - a) (d - b) := rfl

theorem not_lt_of_sq_ge {c x y : ℝ} (hc : 0 ≤ c) (h : c ^ 2 ≤ x ^ 2 + y ^ 2) :
    ¬ jsHypot x y < c := by
  rcases eq_or_lt_of_le hc with h0 | h0
  · exact fun hlt => absurd hlt (by simp [← h0, not_lt, jsHypot_nonneg])
  · exact fun hlt => absurd ((jsHypot_lt_iff h0 x y).mp hlt) (not_lt.mpr h)

/-! ### Folded list minimum, maximum and sum -/

theorem foldl_min_le_self (l : List ℝ) (a : ℝ) : l.foldl min a ≤ a := by
  induction l generalizing a with
  | nil => simp
  | cons x xs ih => exact le_trans (ih (min a x)) (min_le_left a x)

theorem foldl_min_le_mem {l : List ℝ} {x : ℝ} (hx : x ∈ l) (a : ℝ) :
    l.foldl min a ≤ x := by
  induction l generalizing a with
  | nil => cases hx
  | cons y ys ih =>
    rcases List.mem_cons.mp hx with rfl | hmem
    · exact le_trans (foldl_min_le_self ys (min a x)) (min_le_right a x)
    · exact ih hmem (min a y)

theorem le_foldl_min {l : List ℝ} {a c : ℝ} (ha : c ≤ a) (h : ∀ x ∈ l, c ≤ x) :
    c ≤ l.foldl min a := by
  induction l generalizing a with
  | nil => simpa using ha
  | cons x xs ih =>
    exact ih (le_min ha (h x (List.mem_cons_self x xs)))
      fun y hy => h y (List.mem_cons_of_mem _ hy)

theorem jsMinList_eq {l : List ℝ} {m : ℝ} (hmem : m ∈ l) (hle : ∀ x ∈ l, m ≤ x) :
    jsMinList l = m := by
  cases l with
  | nil => cases hmem
  | cons x xs =>
    show xs.foldl min x = m
    refine le_antisymm ?_ ?_
    · rcases List.mem_cons.mp hmem with rfl | hmem2
      · exact foldl_min_le_self xs m
      · exact foldl_min_le_mem hmem2 x
    · exact le_foldl_min (hle x (List.mem_cons_self x xs))
        fun y hy => hle y (List.mem_cons_of_mem _ hy)

theorem self_le_foldl_max (l : List ℝ) (a : ℝ) : a ≤ l.foldl max a := by
  induction l generalizing a with
  | nil => simp
  | cons x xs ih => exact le_trans (le_max_left a x) (ih (max a x))

theorem le_foldl_max {l : List ℝ} {x : ℝ} (hx : x ∈ l) (a : ℝ) :
    x ≤ l.foldl max a := by
  induction l generalizing a with
  | nil => cases hx
  | cons y ys ih =>
    rcases List.mem_cons.mp hx with rfl | hmem
    · exact le_trans (le_max_right a x) (self_le_foldl_max ys (max a x))
    · exact ih hmem (max a y)

theorem foldl_max_le {l : List ℝ} {a c : ℝ} (ha : a ≤ c) (h : ∀ x ∈ l, x ≤ c) :
    l.foldl max a ≤ c := by
  induction l generalizing a with
  | nil => simpa using ha
  | cons x xs ih =>
    exact ih (max_le ha (h x (List.mem_cons_self x xs)))
      fun y hy => h y (List.mem_cons_of_mem _ hy)

theorem jsMaxList_eq {l : List ℝ} {m : ℝ} (hmem : m ∈ l) (hle : ∀ x ∈ l, x ≤ m) :
    jsMaxList l = m := by
  cases l with
  | nil => cases hmem
  | cons x xs =>
    show xs.foldl max x = m
    refine le_antisymm ?_ ?_
    · exact foldl_max_le (hle x (List.mem_cons_self x xs))
        fun y hy => hle y (List.mem_cons_of_mem _ hy)
    · rcases List.mem_cons.mp hmem with rfl | hmem2
      · exact self_le_foldl_max xs m
      · exact le_foldl_max hmem2 x

theorem le_jsMaxList {l : List ℝ} {x : ℝ} (hx : x ∈ l) : x ≤ jsMaxList l := by
  cases l with
  | nil => cases hx
  | cons y ys =>
    show x ≤ ys.foldl max y
    rcases List.mem_cons.mp hx with rfl | hmem
    · exact self_le_foldl_max ys x
    · exact le_foldl_max hmem y

theorem foldl_max_mem (l : List ℝ) (a : ℝ) : l.foldl max a = a ∨ l.foldl max a ∈ l := by
  induction l generalizing a with
  | nil => exact Or.inl rfl
  | cons x xs ih =>
    rcases ih (max a x) with h | h
    · rcases max_choice a x with hm | hm
      · exact Or.inl (by simp only [List.foldl_cons]; rw [h, hm])
      · refine Or.inr ?_
        simp only [List.foldl_cons]
        rw [h, hm]
        exact List.mem_cons_self x xs
    · exact Or.inr (List.mem_cons_of_mem _ (by simpa using h))

theorem jsMaxList_mem {l : List ℝ} (hl : l ≠ []) : jsMaxList l ∈ l := by
  cases l with
  | nil => exact absurd rfl hl
  | cons x xs =>
    show xs.foldl max x ∈ x :: xs
    rcases foldl_max_mem xs x with h | h
    · rw [h]; exact List.mem_cons_self x xs
    · exact List.mem_cons_of_mem _ h

theorem jsMaxList_lt {l : List ℝ} {c : ℝ} (hl : l ≠ []) (h : ∀ x ∈ l, x < c) :
    jsMaxList l < c := h _ (jsMaxList_mem hl)

theorem jsMaxList_le {l : List ℝ} {c : ℝ} (hl : l ≠ []) (h : ∀ x ∈ l, x ≤ c) :
    jsMaxList l ≤ c := h _ (jsMaxList_mem hl)

theorem foldl_add_eq (l : List ℝ) (a : ℝ) : l.foldl (· + ·) a = a + l.sum := by
  induction l generalizing a with
  | nil => simp
  | cons x xs ih => simp [ih, add_assoc]

theorem jsSum_eq_sum (l : List ℝ) : jsSum l = l.sum := by
  simp [jsSum, foldl_add_eq]

theorem single_le_jsSum {l : List ℝ} {x : ℝ} (hx : x ∈ l) (h : ∀ y ∈ l, 0 ≤ y) :
    x ≤ jsSum l := by
  rw [jsSum_eq_sum]; exact List.single_le_sum h x hx

theorem jsIndexOf_getD {l : List ℝ} {a : ℝ} (h : a ∈ l) :
    l.getD (jsIndexOf l a) 0 = a := by
  induction l with
  | nil => cases h
  | cons x xs ih =>
    by_cases hxa : x = a
    · simp [jsIndexOf, hxa]
    · have hmem : a ∈ xs := by
        rcases List.mem_cons.mp h with rfl | hm
        · exact absurd rfl hxa
        · exact hm
      simpa [jsIndexOf, hxa, List.getD] using ih hmem

/-! ### Cleaning and path length over well-spaced point lists -/

theorem cleanGo_of_chain {l : List Point} {last : Point}
    (h : List.Chain (fun a b => 2 < ptDist a b) last l) : cleanGo last l = l := by
  induction l generalizing last with
  | nil => rfl
  | cons q rest ih =>
    rcases List.chain_cons.mp h with ⟨hq, hrest⟩
    simp [cleanGo, hq, ih hrest]

theorem cleanPoints_of_chain {l : List Point}
    (h : l.Chain' fun a b => 2 < ptDist a b) : cleanPoints l = l := by
  cases l with
  | nil => rfl
  | cons p rest => simp [cleanPoints, cleanGo_of_chain h]

/-! ### The normalised turning angle and its rational characterisation -/

theorem normAngle_cos (d : ℝ) : Real.cos (normAngle d) = Real.cos d := by
  unfold normAngle
  split_ifs with h1 h2
  · exact Real.cos_sub_two_pi d
  · exact Real.cos_add_two_pi d
  · rfl

theorem abs_normAngle_le_pi {d : ℝ} (h1 : -(2 * Real.pi) < d) (h2 : d < 2 * Real.pi) :
    |normAngle d| ≤ Real.pi := by
  have hpi := Real.pi_pos
  unfold normAngle
  split_ifs with ha hb
  · rw [abs_le]; constructor <;> linarith
  · rw [abs_le]; constructor <;> linarith
  · rw [abs_le]; push_neg at ha hb; constructor <;> linarith

/-- The corner-detection band test, reduced to a rational comparison of the
dot product with the squared segment lengths: the absolute normalised angle
between two nonzero vectors lies strictly between pi/4 and 3 pi/4 exactly
when twice the squared dot product is below the product of the squared
norms. -/
theorem turn_band_iff {x1 y1 x2 y2 : ℝ}
    (h1 : 0 < x1 ^ 2 + y1 ^ 2) (h2 : 0 < x2 ^ 2 + y2 ^ 2) :
    (Real.pi / 4 < |normAngle (jsAtan2 y2 x2 - jsAtan2 y1 x1)| ∧
      |normAngle (jsAtan2 y2 x2 - jsAtan2 y1 x1)| < 3 * Real.pi / 4) ↔
    2 * (x1 * x2 + y1 * y2) ^ 2 < (x1 ^ 2 + y1 ^ 2) * (x2 ^ 2 + y2 ^ 2) := by
  have hpi := Real.pi_pos
  set z1 : ℂ := ⟨x1, y1⟩ with hz1def
  set z2 : ℂ := ⟨x2, y2⟩ with hz2def
  have hn1 : Complex.normSq z1 = x1 ^ 2 + y1 ^ 2 := by
    rw [hz1def, Complex.normSq_mk]; ring
  have hn2 : Complex.normSq z2 = x2 ^ 2 + y2 ^ 2 := by
    rw [hz2def, Complex.normSq_mk]; ring
  have hz1 : z1 ≠ 0 := by
    rw [← Complex.normSq_pos, hn1]; exact h1
  have hz2 : z2 ≠ 0 := by
    rw [← Complex.normSq_pos, hn2]; exact h2
  have hr1 : (0 : ℝ) < Complex.abs z1 := Complex.abs.pos hz1
  have hr2 : (0 : ℝ) < Complex.abs z2 := Complex.abs.pos hz2
  have ha1 := Complex.arg_mem_Ioc z1
  have ha2 := Complex.arg_mem_Ioc z2
  rw [Set.mem_Ioc] at ha1 ha2
  have hatan1 : jsAtan2 y1 x1 = Complex.arg z1 := rfl
  have hatan2 : jsAtan2 y2 x2 = Complex.arg z2 := rfl
  rw [hatan1, hatan2]
  set d := Complex.arg z2 - Complex.arg z1 with hddef
  set e := normAngle d with hedef
  have hde1 : -(2 * Real.pi) < d := by rw [hddef]; linarith [ha1.2, ha2.1]
  have hde2 : d < 2 * Real.pi := by rw [hddef]; linarith [ha1.1, ha2.2]
  have hepi : |e| ≤ Real.pi := abs_normAngle_le_pi hde1 hde2
  have hcos_e : Real.cos e =
      (x1 * x2 + y1 * y2) / (Complex.abs z1 * Complex.abs z2) := by
    rw [hedef, normAngle_cos, hddef, Real.cos_sub]
    rw [Complex.cos_arg hz1, Complex.cos_arg hz2, Complex.sin_arg, Complex.sin_arg]
    have e1 : z1.re = x1 := rfl
    have e2 : z1.im = y1 := rfl
    have e3 : z2.re = x2 := rfl
    have e4 : z2.im = y2 := rfl
    rw [e1, e2, e3, e4]
    field_simp
    ring
  have hsq2 : Real.sqrt 2 / 2 > 0 := by positivity
  have hcos_pi4 : Real.cos (Real.pi / 4) = Real.sqrt 2 / 2 := Real.cos_pi_div_four
  have hcos_3pi4 : Real.cos (3 * Real.pi / 4) = -(Real.sqrt 2 / 2) := by
    have : (3 : ℝ) * Real.pi / 4 = Real.pi - Real.pi / 4 := by ring
    rw [this, Real.cos_pi_sub, hcos_pi4]
  -- Step A: the band holds iff |cos e| < sqrt 2 / 2
  have stepA : (Real.pi / 4 < |e| ∧ |e| < 3 * Real.pi / 4) ↔
      |Real.cos e| < Real.sqrt 2 / 2 := by
    constructor
    · rintro ⟨hlo, hhi⟩
      have hup : Real.cos |e| < Real.cos (Real.pi / 4) :=
        Real.cos_lt_cos_of_nonneg_of_le_pi (by positivity) hepi hlo
      have hdown : Real.cos (3 * Real.pi / 4) < Real.cos |e| :=
        Real.cos_lt_cos_of_nonneg_of_le_pi (abs_nonneg e) (by linarith) hhi
      rw [Real.cos_abs] at hup hdown
      rw [hcos_pi4] at hup
      rw [hcos_3pi4] at hdown
      exact abs_lt.mpr ⟨hdown, hup⟩
    · intro hlt
      by_contra hcon
      rw [not_and_or, not_lt, not_lt] at hcon
      rcases hcon with hle | hge
      · have : Real.cos (Real.pi / 4) ≤ Real.cos |e| :=
          Real.cos_le_cos_of_nonneg_of_le_pi (abs_nonneg e) (by linarith) hle
        rw [Real.cos_abs, hcos_pi4] at this
        have : Real.sqrt 2 / 2 ≤ |Real.cos e| := le_trans this (le_abs_self _)
        linarith
      · have : Real.cos |e| ≤ Real.cos (3 * Real.pi / 4) :=
          Real.cos_le_cos_of_nonneg_of_le_pi (by positivity) hepi hge
        rw [Real.cos_abs, hcos_3pi4] at this
        have : Real.sqrt 2 / 2 ≤ |Real.cos e| := le_abs.mpr (Or.inr (by linarith))
        linarith
  -- Step B: |cos e| < sqrt 2 / 2 iff cos e ^ 2 < 1 / 2
  have stepB : |Real.cos e| < Real.sqrt 2 / 2 ↔ Real.cos e ^ 2 < 1 / 2 := by
    have habs : |Real.cos e| ^ 2 = Real.cos e ^ 2 := sq_abs _
    have hhalf : (Real.sqrt 2 / 2) ^ 2 = 1 / 2 := by
      rw [div_pow, Real.sq_sqrt (by norm_num : (2:ℝ) ≥ 0)]; norm_num
    constructor
    · intro h
      calc Real.cos e ^ 2 = |Real.cos e| ^ 2 := habs.symm
        _ < (Real.sqrt 2 / 2) ^ 2 := by
            exact pow_lt_pow_left h (abs_nonneg _) (by norm_num)
        _ = 1 / 2 := hhalf
    · intro h
      by_contra hcon
      push_neg at hcon
      have : (Real.sqrt 2 / 2) ^ 2 ≤ |Real.cos e| ^ 2 :=
        pow_le_pow_left (le_of_lt hsq2) hcon 2
      rw [habs, hhalf] at this
      linarith
  -- Step C: cos e ^ 2 < 1 / 2 iff the rational dot-product test
  have hprod : (Complex.abs z1 * Complex.abs z2) ^ 2 =
      (x1 ^ 2 + y1 ^ 2) * (x2 ^ 2 + y2 ^ 2) := by
    rw [mul_pow, Complex.sq_abs, Complex.sq_abs, hn1, hn2]
  have hprodpos : 0 < (x1 ^ 2 + y1 ^ 2) * (x2 ^ 2 + y2 ^ 2) := mul_pos h1 h2
  have stepC : Real.cos e ^ 2 < 1 / 2 ↔
      2 * (x1 * x2 + y1 * y2) ^ 2 < (x1 ^ 2 + y1 ^ 2) * (x2 ^ 2 + y2 ^ 2) := by
    rw [hcos_e, div_pow, hprod]
    rw [div_lt_iff hprodpos]
    constructor <;> intro h <;> linarith
  exact stepA.trans (stepB.trans stepC)

/-! ### Convexity fold characterisation -/

/-- The cross-product list changes sign: it contains both a positive and a
negative entry. -/
def SignChange (l : List ℝ) : Prop := (∃ x ∈ l, 0 < x) ∧ (∃ y ∈ l, y < 0)

theorem convexFold_snd_false {st : ℝ × Bool} (h : st.2 = false) (cr : ℝ) :
    (convexFold st cr).2 = false := by
  simp only [convexFold]
  split_ifs <;> simp [h]

theorem foldl_convexFold_false : ∀ (l : List ℝ) (st : ℝ × Bool), st.2 = false →
    (l.foldl convexFold st).2 = false := by
  intro l
  induction l with
  | nil => intro st h; exact h
  | cons a xs ih => intro st h; exact ih _ (convexFold_snd_false h a)

theorem convexFold_at_pos {c : Bool} {a : ℝ} (ha : a < 0) :
    convexFold (1, c) a = (1, false) := by
  have hsgn : jsSign a = -1 := by
    simp [jsSign, ha, not_lt.mpr (le_of_lt ha)]
  simp only [convexFold, hsgn]
  norm_num

theorem convexFold_at_pos_zero {c : Bool} {a : ℝ} (ha : a = 0) :
    convexFold (1, c) a = (1, c) := by
  have hsgn : jsSign a = 0 := by simp [jsSign, ha]
  simp only [convexFold, hsgn]
  norm_num

theorem convexFold_at_pos_pos {c : Bool} {a : ℝ} (ha : 0 < a) :
    convexFold (1, c) a = (1, c) := by
  have hsgn : jsSign a = 1 := by simp [jsSign, ha]
  simp only [convexFold, hsgn]
  norm_num

theorem convexFold_at_neg_neg {c : Bool} {a : ℝ} (ha : a < 0) :
    convexFold (-1, c) a = (-1, c) := by
  have hsgn : jsSign a = -1 := by
    simp [jsSign, ha, not_lt.mpr (le_of_lt ha)]
  simp only [convexFold, hsgn]
  norm_num

theorem convexFold_at_neg_zero {c : Bool} {a : ℝ} (ha : a = 0) :
    convexFold (-1, c) a = (-1, c) := by
  have hsgn : jsSign a = 0 := by simp [jsSign, ha]
  simp only [convexFold, hsgn]
  norm_num

theorem convexFold_at_neg_pos {c : Bool} {a : ℝ} (ha : 0 < a) :
    convexFold (-1, c) a = (-1, false) := by
  have hsgn : jsSign a = 1 := by simp [jsSign, ha]
  simp only [convexFold, hsgn]
  norm_num

theorem convexFold_at_zero (c : Bool) (a : ℝ) :
    convexFold (0, c) a = (jsSign a, c) := by
  simp only [convexFold]
  norm_num

theorem foldl_convexFold_pos (l : List ℝ) (c : Bool) :
    ((l.foldl convexFold (1, c)).2 = false) ↔ (c = false ∨ ∃ y ∈ l, y < 0) := by
  induction l generalizing c with
  | nil => simp
  | cons a xs ih =>
    simp only [List.foldl_cons]
    rcases lt_trichotomy a 0 with ha | ha | ha
    · rw [convexFold_at_pos ha]
      have hfalse := foldl_convexFold_false xs (1, false) rfl
      constructor
      · intro _; exact Or.inr ⟨a, List.mem_cons_self a xs, ha⟩
      · intro _; exact hfalse
    · rw [convexFold_at_pos_zero ha, ih]
      constructor
      · rintro (h | ⟨y, hy, hy0⟩)
        · exact Or.inl h
        · exact Or.inr ⟨y, List.mem_cons_of_mem _ hy, hy0⟩
      · rintro (h | ⟨y, hy, hy0⟩)
        · exact Or.inl h
        · rcases List.mem_cons.mp hy with rfl | hmem
          · exact absurd ha (by intro h0; rw [h0] at hy0; exact lt_irrefl 0 hy0)
          · exact Or.inr ⟨y, hmem, hy0⟩
    · rw [convexFold_at_pos_pos ha, ih]
      constructor
      · rintro (h | ⟨y, hy, hy0⟩)
        · exact Or.inl h
        · exact Or.inr ⟨y, List.mem_cons_of_mem _ hy, hy0⟩
      · rintro (h | ⟨y, hy, hy0⟩)
        · exact Or.inl h
        · rcases List.mem_cons.mp hy with rfl | hmem
          · linarith
          · exact Or.inr ⟨y, hmem, hy0⟩

theorem foldl_convexFold_neg (l : List ℝ) (c : Bool) :
    ((l.foldl convexFold (-1, c)).2 = false) ↔ (c = false ∨ ∃ x ∈ l, 0 < x) := by
  induction l generalizing c with
  | nil => simp
  | cons a xs ih =>
    simp only [List.foldl_cons]
    rcases lt_trichotomy a 0 with ha | ha | ha
    · rw [convexFold_at_neg_neg ha, ih]
      constructor
      · rintro (h | ⟨y, hy, hy0⟩)
        · exact Or.inl h
        · exact Or.inr ⟨y, List.mem_cons_of_mem _ hy, hy0⟩
      · rintro (h | ⟨y, hy, hy0⟩)
        · exact Or.inl h
        · rcases List.mem_cons.mp hy with rfl | hmem
          · linarith
          · exact Or.inr ⟨y, hmem, hy0⟩
    · rw [convexFold_at_neg_zero ha, ih]
      constructor
      · rintro (h | ⟨y, hy, hy0⟩)
        · exact Or.inl h
        · exact Or.inr ⟨y, List.mem_cons_of_mem _ hy, hy0⟩
      · rintro (h | ⟨y, hy, hy0⟩)
        · exact Or.inl h
        · rcases List.mem_cons.mp hy with rfl | hmem
          · exact absurd ha (by intro h0; rw [h0] at hy0; exact lt_irrefl 0 hy0)
          · exact Or.inr ⟨y, hmem, hy0⟩
    · rw [convexFold_at_neg_pos ha]
      have hfalse := foldl_convexFold_false xs (-1, false) rfl
      constructor
      · intro _; exact Or.inr ⟨a, List.mem_cons_self a xs, ha⟩
      · intro _; exact hfalse

theorem foldl_convexFold_zero (l : List ℝ) (c : Bool) :
    ((l.foldl convexFold (0, c)).2 = false) ↔ (c = false ∨ SignChange l) := by
  induction l generalizing c with
  | nil => simp [SignChange]
  | cons a xs ih =>
    simp only [List.foldl_cons]
    have hstep : convexFold (0, c) a = (jsSign a, c) := by
      simp [convexFold]
    rw [hstep]
    rcases lt_trichotomy a 0 with ha | ha | ha
    · have : jsSign a = -1 := by simp [jsSign, ha, not_lt.mpr (le_of_lt ha)]
      rw [this, foldl_convexFold_neg]
      unfold SignChange
      constructor
      · rintro (h | ⟨x, hx, hx0⟩)
        · exact Or.inl h
        · exact Or.inr ⟨⟨x, List.mem_cons_of_mem _ hx, hx0⟩,
            ⟨a, List.mem_cons_self a xs, ha⟩⟩
      · rintro (h | ⟨⟨x, hx, hx0⟩, _⟩)
        · exact Or.inl h
        · rcases List.mem_cons.mp hx with rfl | hmem
          · linarith
          · exact Or.inr ⟨x, hmem, hx0⟩
    · have : jsSign a = 0 := by simp [jsSign, ha]
      rw [this, ih]
      unfold SignChange
      constructor
      · rintro (h | ⟨⟨x, hx, hx0⟩, ⟨y, hy, hy0⟩⟩)
        · exact Or.inl h
        · exact Or.inr ⟨⟨x, List.mem_cons_of_mem _ hx, hx0⟩,
            ⟨y, List.mem_cons_of_mem _ hy, hy0⟩⟩
      · rintro (h | ⟨⟨x, hx, hx0⟩, ⟨y, hy, hy0⟩⟩)
        · exact Or.inl h
        · refine Or.inr ⟨⟨x, ?_, hx0⟩, ⟨y, ?_, hy0⟩⟩
          · rcases List.mem_cons.mp hx with rfl | hmem
            · linarith
            · exact hmem
          · rcases List.mem_cons.mp hy with rfl | hmem
            · linarith
            · exact hmem
    · have : jsSign a = 1 := by simp [jsSign, ha]
      rw [this, foldl_convexFold_pos]
      unfold SignChange
      constructor
      · rintro (h | ⟨y, hy, hy0⟩)
        · exact Or.inl h
        · exact Or.inr ⟨⟨a, List.mem_cons_self a xs, ha⟩,
            ⟨y, List.mem_cons_of_mem _ hy, hy0⟩⟩
      · rintro (h | ⟨_, ⟨y, hy, hy0⟩⟩)
        · exact Or.inl h
        · rcases List.mem_cons.mp hy with rfl | hmem
          · linarith
          · exact Or.inr ⟨y, hmem, hy0⟩

theorem isConvexOf_false_iff (verts : List Point) :
    isConvexOf verts = false ↔ SignChange (crossList verts) := by
  unfold isConvexOf
  rw [foldl_convexFold_zero]
  simp

/-! ### Softmax bounds -/

theorem softmaxProbs_pos_le_one {zs : List ℝ} {p : ℝ} (hp : p ∈ softmaxProbs zs) :
    0 < p ∧ p ≤ 1 := by
  unfold softmaxProbs at hp
  obtain ⟨e, he, rfl⟩ := List.mem_map.mp hp
  obtain ⟨z, _, hez⟩ := List.mem_map.mp he
  have hexp_pos : (0:ℝ) < e := hez ▸ Real.exp_pos _
  have hS : e ≤ jsSum (zs.map fun z => Real.exp (z - jsMaxList zs)) := by
    refine single_le_jsSum he ?_
    intro y hy
    obtain ⟨w, _, rfl⟩ := List.mem_map.mp hy
    exact le_of_lt (Real.exp_pos _)
  have hmax_pos : (0:ℝ) <
      max 1e-8 (jsSum (zs.map fun z => Real.exp (z - jsMaxList zs))) :=
    lt_of_lt_of_le (by norm_num) (le_max_left _ _)
  constructor
  · exact div_pos hexp_pos hmax_pos
  · rw [div_le_one hmax_pos]
    exact le_trans hS (le_max_right _ _)

theorem predictProbs_eq_none_iff (f : Features) :
    predictProbs f = none ↔ jsMaxList (softmaxProbs (logits f)) < 0.6 := by
  unfold predictProbs
  split_ifs with h <;> simp [h]

theorem predictProbs_eq_some_iff (f : Features) :
    (¬ jsMaxList (softmaxProbs (logits f)) < 0.6) →
      predictProbs f = some (softmaxProbs (logits f)) := by
  intro h
  unfold predictProbs
  split_ifs
  rfl

theorem pathLength_of_chain {w : ℝ} :
    ∀ {l : List Point}, (l.Chain' fun a b => ptDist a b = w) →
      pathLength l = (l.length - 1 : ℕ) * w := by
  intro l
  induction l with
  | nil => intro _; simp [pathLength]
  | cons a rest ih =>
    intro h
    cases rest with
    | nil => simp [pathLength]
    | cons b rest2 =>
      have hab : ptDist a b = w := List.chain'_cons.mp h |>.1
      have htail := List.chain'_cons.mp h |>.2
      have := ih htail
      simp only [pathLength, hab, this]
      simp only [List.length_cons, Nat.add_sub_cancel]
      push_cast
      ring

/-! ### Claim C3: the fail-fast gates of feature extraction -/

/-- C3: Feature extraction returns null exactly when one of the fail-fast
gates trips: fewer than 15 raw points, fewer than 10 cleaned points at the
2-unit noise floor, or a closed stroke whose bounding box is under 15 units
wide or high; every other input yields a Feature Record. -/
theorem extractFeatures_none_iff (ps : List Point) :
    extractFeatures ps = none ↔
      ps.length < 15 ∨ (cleanPoints ps).length < 10 ∨
        (isClosedOf (cleanPoints ps) = true ∧
          (widthOf (cleanPoints ps) < 15 ∨ heightOf (cleanPoints ps) < 15)) := by
  simp only [extractFeatures]
  split_ifs with h1 h2 h3
  · simp [h1]
  · simp [h2]
  · simp [h3]
  · simp [h1, h2, h3]

/-! ### Claim C6: determinism of the pipeline -/

/-- C6: recognition is deterministic.  The pipeline is a pure function of
the point sequence; in particular its outputs (feature record, class
probabilities, classification) do not depend on the ambient Math.random
stream, so two invocations on an identical sequence always agree. -/
theorem recognizePipeline_deterministic (rnd1 rnd2 : ℕ → ℝ) (ready : Bool)
    (ps : List Point) :
    recognizePipeline rnd1 ready ps = recognizePipeline rnd2 ready ps := rfl

/-- In contrast, the historical noisy variant of predictProbs (part_001)
does depend on the random stream: different draws give different logits.
This is the random-noise injection the spec flags as an anti-pattern. -/
theorem noisyLogitsV1_depends_on_noise :
    ∃ (n1 n2 : Fin 3 → ℝ) (a s q : ℝ) (c : Bool),
      noisyLogitsV1 n1 a s q c ≠ noisyLogitsV1 n2 a s q c := by
  refine ⟨fun _ => 0, fun _ => 1, 1, 1, 1, false, ?_⟩
  intro h
  simp only [noisyLogitsV1, List.cons.injEq] at h
  have h1 := h.1
  norm_num at h1

/-! ### Claim C4: corner-loop candidate margins and the angle band -/

/-- C4 counterexample: with 64 smoothed points and a closed stroke the
lookahead is 3 and index 0 is not a candidate of the corner loop, so a
closed sequence does not make every index a candidate: a lookahead-sized
margin is excluded at both ends in the closed case as well. -/
theorem cornerCandidates_closed_margin_counterexample :
    cornerLookahead 64 = 3 ∧ (0 : ℕ) ∉ cornerCandidates 64 true ∧
      cornerCandidates 64 true ≠ List.range 64 := by decide

/-- C4 (amended): for both open and closed sequences the corner loop runs
over indices from lookahead to endLimit - lookahead - 1 where endLimit is
n when closed and n - 1 when open (so a lookahead-sized margin is excluded
at both ends in either case, the closed case merely keeping one more
index); and a candidate whose incoming and outgoing lookahead segments are
at least 5 units long qualifies as a corner (increments the counter when
no dedup neighbour exists) exactly when its absolute normalised turning
angle lies strictly between pi/4 and 3 pi/4. -/
theorem cornerCandidates_and_band_spec :
    (∀ (n : ℕ) (closed : Bool) (i : ℕ),
      i ∈ cornerCandidates n closed ↔
        cornerLookahead n ≤ i ∧
          i + cornerLookahead n < (if closed then n else n - 1)) ∧
    (∀ (sm : List Point) (n la : ℕ) (mwh : ℝ) (c : ℕ) (as : List ℝ) (i : ℕ),
      ¬ jsHypot (cornerVecs sm n la i).1.1 (cornerVecs sm n la i).1.2 < 5 →
      ¬ jsHypot (cornerVecs sm n la i).2.1 (cornerVecs sm n la i).2.2 < 5 →
      ((cornerStep sm n la mwh ⟨c, as, []⟩ i).corners = c + 1 ↔
        (Real.pi / 4 < turnAngle sm n la i ∧
          turnAngle sm n la i < 3 * Real.pi / 4))) := by
  constructor
  · intro n closed i
    unfold cornerCandidates
    rw [List.mem_range'_1]
    constructor
    · rintro ⟨h1, h2⟩
      exact ⟨h1, by split at h2 <;> split <;> omega⟩
    · rintro ⟨h1, h2⟩
      refine ⟨h1, ?_⟩
      split at h2 <;> split <;> omega
  · intro sm n la mwh c as i hd1 hd2
    unfold cornerStep
    rw [if_neg (by push_neg; exact ⟨not_lt.mp hd1, not_lt.mp hd2⟩)]
    by_cases hband : Real.pi / 4 < turnAngle sm n la i ∧
        turnAngle sm n la i < 3 * Real.pi / 4
    · rw [if_pos hband, if_pos (by intro idx hidx; cases hidx)]
      simp [hband]
    · rw [if_neg hband]
      simp [hband]


/-! ### Claim C5: corner-count mismatch never raises a class score -/

/-- Class scores in the order of the logit vector of predictProbs. -/
def zScore (k : Fin 7) (f : Features) : ℝ :=
  match k with
  | 0 => zLine f
  | 1 => zCircle f
  | 2 => zRect f
  | 3 => zSquare f
  | 4 => zTriangle f
  | 5 => zHexagon f
  | 6 => zPentagon f

/-- The corner count each class formula treats as its target. -/
def expectedCorners (k : Fin 7) : ℕ :=
  match k with
  | 0 => 0
  | 1 => 0
  | 2 => 4
  | 3 => 4
  | 4 => 3
  | 5 => 6
  | 6 => 5

theorem logits_eq_zScores (f : Features) :
    logits f = [zScore 0 f, zScore 1 f, zScore 2 f, zScore 3 f,
      zScore 4 f, zScore 5 f, zScore 6 f] := rfl

theorem abs_sub_cast_nat (e c : ℕ) :
    |(e : ℝ) - (c : ℝ)| = ((|(c : ℤ) - (e : ℤ)| : ℤ) : ℝ) := by
  rw [Int.cast_abs]
  push_cast
  rw [abs_sub_comm]

/-- C5: for every feature record and class, moving the corner count further
from the class target (all other features fixed) never increases that
class score in predictProbs. -/
theorem zScore_corner_mismatch_antitone (f : Features) (k : Fin 7) (c1 c2 : ℕ)
    (h : |(c1 : ℤ) - (expectedCorners k : ℤ)| ≤ |(c2 : ℤ) - (expectedCorners k : ℤ)|) :
    zScore k { f with corners := c2 } ≤ zScore k { f with corners := c1 } := by
  fin_cases k
  -- line: target 0, score has only the -1.5 * corners term
  · simp only [expectedCorners] at h
    have hc : (c1 : ℝ) ≤ (c2 : ℝ) := by
      have : (c1 : ℤ) ≤ (c2 : ℤ) := by
        simpa [Int.abs_natCast] using h
      exact_mod_cast this
    simp only [zScore, zLine]
    linarith
  -- circle: target 0
  · simp only [expectedCorners] at h
    have hc : c1 ≤ c2 := by
      have : (c1 : ℤ) ≤ (c2 : ℤ) := by
        simpa [Int.abs_natCast] using h
      exact_mod_cast this
    have hcr : (c1 : ℝ) ≤ (c2 : ℝ) := Nat.cast_le.mpr hc
    simp only [zScore, zCircle]
    rw [max_eq_right (Nat.cast_nonneg c2), max_eq_right (Nat.cast_nonneg c1),
      abs_of_nonneg (Nat.cast_nonneg c2), abs_of_nonneg (Nat.cast_nonneg c1)]
    by_cases h1 : 1 < c1
    · have h2 : 1 < c2 := lt_of_lt_of_le h1 hc
      rw [if_pos h1, if_pos h2]
      linarith
    · by_cases h2 : 1 < c2
      · rw [if_neg h1, if_pos h2]
        have e1 : (c1 : ℝ) ≤ 1 := by exact_mod_cast not_lt.mp h1
        have e2 : (2 : ℝ) ≤ (c2 : ℝ) := by exact_mod_cast h2
        linarith
      · rw [if_neg h1, if_neg h2]
        linarith
  -- rectangle: target 4, flat bonus at exactly 4
  · simp only [expectedCorners] at h
    simp only [zScore, zRect]
    by_cases h2 : c2 = 4
    · have h1 : c1 = 4 := by
        subst h2
        have h0 : |(c1 : ℤ) - 4| ≤ 0 := by simpa using h
        have := abs_nonpos_iff.mp h0
        omega
      subst h1; subst h2
      exact le_refl _
    · rw [if_neg h2]
      by_cases h1 : c1 = 4
      · rw [if_pos h1]; linarith
      · rw [if_neg h1]
  -- square: target 4, flat bonus at exactly 4
  · simp only [expectedCorners] at h
    simp only [zScore, zSquare]
    by_cases h2 : c2 = 4
    · have h1 : c1 = 4 := by
        subst h2
        have h0 : |(c1 : ℤ) - 4| ≤ 0 := by simpa using h
        have := abs_nonpos_iff.mp h0
        omega
      subst h1; subst h2
      exact le_refl _
    · rw [if_neg h2]
      by_cases h1 : c1 = 4
      · rw [if_pos h1]; linarith
      · rw [if_neg h1]
  -- triangle: target 3, bonus at 3 and -5 per unit of mismatch
  · simp only [expectedCorners] at h
    simp only [zScore, zTriangle]
    have hd : |(3 : ℝ) - (c1 : ℝ)| ≤ |(3 : ℝ) - (c2 : ℝ)| := by
      have e1 := abs_sub_cast_nat 3 c1
      have e2 := abs_sub_cast_nat 3 c2
      push_cast at e1 e2
      rw [e1, e2]
      exact_mod_cast h
    by_cases h2 : c2 = 3
    · have h1 : c1 = 3 := by
        subst h2
        have h0 : |(c1 : ℤ) - 3| ≤ 0 := by simpa using h
        have := abs_nonpos_iff.mp h0
        omega
      subst h1; subst h2
      exact le_refl _
    · rw [if_neg h2]
      by_cases h1 : c1 = 3
      · rw [if_pos h1]
        have : |(3 : ℝ) - (c2 : ℝ)| ≥ 0 := abs_nonneg _
        linarith
      · rw [if_neg h1]
        linarith
  -- hexagon: target 6, bonus at 6 and -3 per unit of mismatch
  · simp only [expectedCorners] at h
    simp only [zScore, zHexagon]
    have hd : |(6 : ℝ) - (c1 : ℝ)| ≤ |(6 : ℝ) - (c2 : ℝ)| := by
      have e1 := abs_sub_cast_nat 6 c1
      have e2 := abs_sub_cast_nat 6 c2
      push_cast at e1 e2
      rw [e1, e2]
      exact_mod_cast h
    by_cases h2 : c2 = 6
    · have h1 : c1 = 6 := by
        subst h2
        have h0 : |(c1 : ℤ) - 6| ≤ 0 := by simpa using h
        have := abs_nonpos_iff.mp h0
        omega
      subst h1; subst h2
      exact le_refl _
    · rw [if_neg h2]
      by_cases h1 : c1 = 6
      · rw [if_pos h1]
        have : |(6 : ℝ) - (c2 : ℝ)| ≥ 0 := abs_nonneg _
        linarith
      · rw [if_neg h1]
        linarith
  -- pentagon: target 5, bonus at 5 and -3 per unit of mismatch
  · simp only [expectedCorners] at h
    simp only [zScore, zPentagon]
    have hd : |(5 : ℝ) - (c1 : ℝ)| ≤ |(5 : ℝ) - (c2 : ℝ)| := by
      have e1 := abs_sub_cast_nat 5 c1
      have e2 := abs_sub_cast_nat 5 c2
      push_cast at e1 e2
      rw [e1, e2]
      exact_mod_cast h
    by_cases h2 : c2 = 5
    · have h1 : c1 = 5 := by
        subst h2
        have h0 : |(c1 : ℤ) - 5| ≤ 0 := by simpa using h
        have := abs_nonpos_iff.mp h0
        omega
      subst h1; subst h2
      exact le_refl _
    · rw [if_neg h2]
      by_cases h1 : c1 = 5
      · rw [if_pos h1]
        have : |(5 : ℝ) - (c2 : ℝ)| ≥ 0 := abs_nonneg _
        linarith
      · rw [if_neg h1]
        linarith

/-- An arbitrary feature record used to instantiate universally quantified
claims at a concrete input. -/
def flatFeatures : Features :=
  { width := 0, height := 0, aspect := 0, isClosed := false, straightness := 0,
    squareness := 0, minX := 0, minY := 0, maxX := 0, maxY := 0, corners := 0,
    circularity := 0, cornerAngles := [], diagonal := 0, isConvex := true,
    rightAngleScore := 0, startX := 0, startY := 0, endX := 0, endY := 0 }

/-- Witness for C5: the triangle score at 5 detected corners is at most the
triangle score at 3 detected corners. -/
theorem zScore_corner_mismatch_antitone_witness :
    |((3 : ℕ) : ℤ) - (expectedCorners 4 : ℤ)| ≤ |((5 : ℕ) : ℤ) - (expectedCorners 4 : ℤ)| ∧
      zScore 4 { flatFeatures with corners := 5 } ≤
        zScore 4 { flatFeatures with corners := 3 } :=
  ⟨by norm_num [expectedCorners], zScore_corner_mismatch_antitone flatFeatures 4 3 5
    (by norm_num [expectedCorners])⟩

/-! ### Claims C2, C9, C10: the gate, the confidence invariant, and the
classifier-path feature object -/

theorem heurResult_confidence {ps : List Point} {r : RecResult}
    (h : heurResult ps = some r) : r.confidence = 0.5 := by
  unfold heurResult at h
  obtain ⟨s, _, hs⟩ := Option.map_eq_some'.mp h
  rw [← hs]

theorem predictProbs_some_inv {f : Features} {probs : List ℝ}
    (h : predictProbs f = some probs) :
    probs = softmaxProbs (logits f) ∧ ¬ jsMaxList probs < 0.6 := by
  unfold predictProbs at h
  split_ifs at h with hg
  injection h with h
  subst h
  exact ⟨rfl, hg⟩

theorem softmaxProbs_logits_ne_nil (f : Features) : softmaxProbs (logits f) ≠ [] := by
  simp [softmaxProbs, logits]

/-- C9: every non-null recognition result carries confidence exactly 0.5
(heuristic path) or a softmax probability between 0.6 and 1 (classifier
path); nothing in between and nothing below 0.5 is ever returned. -/
theorem recognizeShape_confidence_invariant (ready : Bool) (ps : List Point)
    (r : RecResult) (h : recognizeShape ready ps = some r) :
    r.confidence = 0.5 ∨ (0.6 ≤ r.confidence ∧ r.confidence ≤ 1) := by
  unfold recognizeShape at h
  by_cases hr : ready = false
  · rw [if_pos hr] at h
    exact Or.inl (heurResult_confidence h)
  · rw [if_neg hr] at h
    rcases hef : extractFeatures ps with _ | f
    · simp only [hef] at h
      exact Or.inl (heurResult_confidence h)
    · simp only [hef] at h
      rcases hpp : predictProbs f with _ | probs
      · simp only [hpp] at h
        exact Or.inl (heurResult_confidence h)
      · simp only [hpp] at h
        obtain ⟨hsm, hgate⟩ := predictProbs_some_inv hpp
        have hne : probs ≠ [] := by rw [hsm]; exact softmaxProbs_logits_ne_nil f
        have hconf : probs.getD (jsIndexOf probs (jsMaxList probs)) 0 =
            jsMaxList probs := jsIndexOf_getD (jsMaxList_mem hne)
        have hle1 : jsMaxList probs ≤ 1 := by
          refine jsMaxList_le hne fun p hp => ?_
          rw [hsm] at hp
          exact (softmaxProbs_pos_le_one hp).2
        have hr' := Option.some.inj h
        rw [← hr']
        right
        refine ⟨?_, ?_⟩
        · simp only [hconf]
          exact not_lt.mp hgate
        · simp only [hconf]
          exact hle1

/-- Witness for C2 and C9 is provided with the concrete strokes below. -/
theorem jsOr_some (s : Shape) (b : Option Shape) : jsOr (some s) b = some s := rfl

/-- C2: on the classifier path, a best softmax probability below 0.6 makes
predictProbs return null and recognizeShape fall through to the heuristic
on the same points, while a best probability of at least 0.6 makes
recognizeShape return the argmax class with that probability as its
confidence. -/
theorem classifier_gate_spec (ps : List Point) (f : Features)
    (hf : extractFeatures ps = some f) :
    (jsMaxList (softmaxProbs (logits f)) < 0.6 →
      predictProbs f = none ∧ recognizeShape true ps = heurResult ps) ∧
    (0.6 ≤ jsMaxList (softmaxProbs (logits f)) →
      predictProbs f = some (softmaxProbs (logits f)) ∧
      recognizeShape true ps =
        some ⟨shapeClasses.getD
            (jsIndexOf (softmaxProbs (logits f)) (jsMaxList (softmaxProbs (logits f)))) "",
          jsMaxList (softmaxProbs (logits f)),
          jsOr
            (convertToShape ps
              (shapeClasses.getD
                (jsIndexOf (softmaxProbs (logits f))
                  (jsMaxList (softmaxProbs (logits f)))) ""))
            (heuristicRecognize ps)⟩) := by
  constructor
  · intro hlt
    have hnone : predictProbs f = none := (predictProbs_eq_none_iff f).mpr hlt
    refine ⟨hnone, ?_⟩
    unfold recognizeShape
    rw [if_neg (by simp)]
    simp only [hf, hnone]
  · intro hge
    have hsome : predictProbs f = some (softmaxProbs (logits f)) :=
      predictProbs_eq_some_iff f (not_lt.mpr hge)
    refine ⟨hsome, ?_⟩
    unfold recognizeShape
    rw [if_neg (by simp)]
    simp only [hf, hsome]
    have hconf : (softmaxProbs (logits f)).getD
        (jsIndexOf (softmaxProbs (logits f)) (jsMaxList (softmaxProbs (logits f)))) 0 =
        jsMaxList (softmaxProbs (logits f)) :=
      jsIndexOf_getD (jsMaxList_mem (softmaxProbs_logits_ne_nil f))
    rw [hconf]

/-- C10: whenever the classifier path is taken (features extracted and
predictProbs confident), convertToShape cannot return null: it re-extracts
the same features and every label, known or not, maps to a concrete shape
object, so the heuristic alternative in the features expression is dead
and the result carries the convertToShape object. -/
theorem classifier_path_features_total (ps : List Point) (f : Features)
    (probs : List ℝ) (hf : extractFeatures ps = some f)
    (hp : predictProbs f = some probs) :
    ∃ s : Shape,
      convertToShape ps (shapeClasses.getD (jsIndexOf probs (jsMaxList probs)) "") =
        some s ∧
      recognizeShape true ps =
        some ⟨shapeClasses.getD (jsIndexOf probs (jsMaxList probs)) "",
          probs.getD (jsIndexOf probs (jsMaxList probs)) 0, some s⟩ := by
  obtain ⟨s, hs⟩ : ∃ s, convertToShape ps
      (shapeClasses.getD (jsIndexOf probs (jsMaxList probs)) "") = some s := by
    unfold convertToShape
    simp only [hf]
    split_ifs <;> exact ⟨_, rfl⟩
  refine ⟨s, hs, ?_⟩
  unfold recognizeShape
  rw [if_neg (by simp)]
  simp only [hf, hp, hs]
  rfl

/-! ### Claim C8: the heuristic fallback and its circle rule -/

/-- C8: the heuristic rules are checked in their fixed order; a closed
feature record with circularity above 0.85 and fewer than 2 corners always
falls to the circle rule, which returns a circle at the bounding-box
centre with radius min(width, height)/2; and when extraction fails or no
rule matches, the heuristic returns null and the stroke stays freehand. -/
theorem heuristicRecognize_spec :
    (∀ (ps : List Point) (f : Features), extractFeatures ps = some f →
      f.isClosed = true → 0.85 < f.circularity → f.corners < 2 →
      heuristicRecognize ps =
        some (.circle (f.minX + f.width / 2) (f.minY + f.height / 2)
          (min f.width f.height / 2))) ∧
    (∀ ps : List Point, extractFeatures ps = none → heuristicRecognize ps = none) ∧
    (∀ (ps : List Point) (f : Features), extractFeatures ps = some f →
      ¬ (f.isClosed = false ∧ 4 < f.aspect ∧ f.straightness < 1.5 ∧ f.corners < 2) →
      ¬ (f.corners = 3 ∧ f.circularity < 0.5 ∧ f.isConvex = true) →
      ¬ (f.corners = 4 ∧ f.circularity < 0.4 ∧ 0.6 < f.rightAngleScore ∧
          f.aspect ≤ 1.2 ∧ 0.9 < f.squareness) →
      ¬ (f.corners = 4 ∧ f.circularity < 0.4 ∧ 0.6 < f.rightAngleScore ∧
          (1.3 < f.aspect ∨ f.squareness < 0.8)) →
      ¬ (f.corners = 5 ∧ f.circularity < 0.8 ∧ f.isConvex = true) →
      ¬ (f.corners = 6 ∧ f.circularity < 0.8 ∧ f.isConvex = true) →
      ¬ (0.85 < f.circularity ∧ f.corners < 2) →
      heuristicRecognize ps = none) := by
  refine ⟨?_, ?_, ?_⟩
  · intro ps f hf hcl hcirc hc
    unfold heuristicRecognize
    simp only [hf]
    rw [if_neg (by rintro ⟨h0, _⟩; rw [hcl] at h0; cases h0)]
    rw [if_pos hcl]
    rw [if_neg (by rintro ⟨h3, _⟩; omega)]
    rw [if_neg (by rintro ⟨h4, _⟩; omega)]
    rw [if_neg (by rintro ⟨h4, _⟩; omega)]
    rw [if_neg (by rintro ⟨h5, _⟩; omega)]
    rw [if_neg (by rintro ⟨h6, _⟩; omega)]
    rw [if_pos ⟨hcirc, hc⟩]
  · intro ps h
    unfold heuristicRecognize
    simp only [h]
  · intro ps f hf g1 g2 g3 g4 g5 g6 g7
    unfold heuristicRecognize
    simp only [hf]
    rw [if_neg g1]
    by_cases hcl : f.isClosed = true
    · rw [if_pos hcl, if_neg g2, if_neg g3, if_neg g4, if_neg g5, if_neg g6,
        if_neg g7]
    · rw [if_neg hcl]

/-! ### Claim C7: convexity flag and right-angle score -/

theorem extractFeatures_some_inv {ps : List Point} {f : Features}
    (hf : extractFeatures ps = some f) :
    ¬ ps.length < 15 ∧ ¬ (cleanPoints ps).length < 10 ∧
    ¬ (isClosedOf (cleanPoints ps) = true ∧
        (widthOf (cleanPoints ps) < 15 ∨ heightOf (cleanPoints ps) < 15)) ∧
    f = { width := widthOf (cleanPoints ps)
          height := heightOf (cleanPoints ps)
          aspect := max (widthOf (cleanPoints ps)) (heightOf (cleanPoints ps)) /
            max 1 (min (widthOf (cleanPoints ps)) (heightOf (cleanPoints ps)))
          isClosed := isClosedOf (cleanPoints ps)
          straightness :=
            if 0 < sdOfClean (cleanPoints ps) then
              pathLength (smoothedOfClean (cleanPoints ps)) / sdOfClean (cleanPoints ps)
            else 1
          squareness := 1 - |widthOf (cleanPoints ps) - heightOf (cleanPoints ps)| /
            max (widthOf (cleanPoints ps)) (heightOf (cleanPoints ps))
          minX := minXOf (cleanPoints ps)
          minY := minYOf (cleanPoints ps)
          maxX := maxXOf (cleanPoints ps)
          maxY := maxYOf (cleanPoints ps)
          corners := (scanOfClean (cleanPoints ps)).corners
          circularity :=
            if isClosedOf (cleanPoints ps) = true ∧
                0 < (widthOf (cleanPoints ps) + heightOf (cleanPoints ps)) / 4 then
              1 - radiusVarianceOf (smoothedOfClean (cleanPoints ps))
                ((minXOf (cleanPoints ps) + maxXOf (cleanPoints ps)) / 2)
                ((minYOf (cleanPoints ps) + maxYOf (cleanPoints ps)) / 2)
                ((widthOf (cleanPoints ps) + heightOf (cleanPoints ps)) / 4) /
                ((widthOf (cleanPoints ps) + heightOf (cleanPoints ps)) / 4)
            else 0
          cornerAngles := (scanOfClean (cleanPoints ps)).cornerAngles
          diagonal := jsHypot (widthOf (cleanPoints ps)) (heightOf (cleanPoints ps))
          isConvex :=
            if isClosedOf (cleanPoints ps) = true ∧
                3 ≤ (scanOfClean (cleanPoints ps)).cornerIndices.length
            then isConvexOf (vertsOfClean (cleanPoints ps))
            else true
          rightAngleScore :=
            if isClosedOf (cleanPoints ps) = true ∧
                3 ≤ (scanOfClean (cleanPoints ps)).cornerIndices.length
            then rightAngleScoreOf (vertsOfClean (cleanPoints ps))
            else 0
          startX := ((smoothedOfClean (cleanPoints ps)).getD 0 (0, 0)).1
          startY := ((smoothedOfClean (cleanPoints ps)).getD 0 (0, 0)).2
          endX := ((smoothedOfClean (cleanPoints ps)).getD
            ((smoothedOfClean (cleanPoints ps)).length - 1) (0, 0)).1
          endY := ((smoothedOfClean (cleanPoints ps)).getD
            ((smoothedOfClean (cleanPoints ps)).length - 1) (0, 0)).2 } := by
  simp only [extractFeatures] at hf
  by_cases h1 : ps.length < 15
  · rw [if_pos h1] at hf; cases hf
  · rw [if_neg h1] at hf
    by_cases h2 : (cleanPoints ps).length < 10
    · rw [if_pos h2] at hf; cases hf
    · rw [if_neg h2] at hf
      by_cases h3 : isClosedOf (cleanPoints ps) = true ∧
          (widthOf (cleanPoints ps) < 15 ∨ heightOf (cleanPoints ps) < 15)
      · rw [if_pos h3] at hf; cases hf
      · rw [if_neg h3] at hf
        exact ⟨h1, h2, h3, (Option.some.inj hf).symm⟩

theorem cornerStep_corners_indices (sm : List Point) (n la : ℕ) (mwh : ℝ)
    (st : CornerState) (i : ℕ) (h : st.corners = st.cornerIndices.length) :
    (cornerStep sm n la mwh st i).corners =
      (cornerStep sm n la mwh st i).cornerIndices.length := by
  unfold cornerStep
  by_cases hd : jsHypot (cornerVecs sm n la i).1.1 (cornerVecs sm n la i).1.2 < 5 ∨
      jsHypot (cornerVecs sm n la i).2.1 (cornerVecs sm n la i).2.2 < 5
  · rw [if_pos hd]; exact h
  · rw [if_neg hd]
    by_cases hb : Real.pi / 4 < turnAngle sm n la i ∧
        turnAngle sm n la i < 3 * Real.pi / 4
    · rw [if_pos hb]
      by_cases hdis : ∀ idx ∈ st.cornerIndices,
          ¬ ptDist (sm.getD idx (0, 0)) (sm.getD i (0, 0)) < mwh / 6
      · rw [if_pos hdis]; simp [h]
      · rw [if_neg hdis]; exact h
    · rw [if_neg hb]; exact h

theorem scan_corners_eq_length (clean : List Point) :
    (scanOfClean clean).corners = (scanOfClean clean).cornerIndices.length := by
  unfold scanOfClean cornerScan
  generalize cornerCandidates (smoothedOfClean clean).length (isClosedOf clean) = cands
  have : ∀ (l : List ℕ) (st : CornerState), st.corners = st.cornerIndices.length →
      (l.foldl (cornerStep (smoothedOfClean clean) (smoothedOfClean clean).length
        (cornerLookahead (smoothedOfClean clean).length)
        (min (widthOf clean) (heightOf clean))) st).corners =
      (l.foldl (cornerStep (smoothedOfClean clean) (smoothedOfClean clean).length
        (cornerLookahead (smoothedOfClean clean).length)
        (min (widthOf clean) (heightOf clean))) st).cornerIndices.length := by
    intro l
    induction l with
    | nil => intro st h; exact h
    | cons a xs ih =>
      intro st h
      exact ih _ (cornerStep_corners_indices _ _ _ _ _ _ h)
  exact this cands ⟨0, [], []⟩ rfl

/-- C7 (amended): the convexity flag and right-angle score are computed
from the corner vertices only when the stroke is closed and at least 3
corners were detected: then isConvex is false exactly when the corner
cross products change sign, and rightAngleScore is the near-right-angle
triple count divided by the vertex count, hence in [0, 1].  For open
strokes, or with fewer than 3 corners, isConvex stays true and
rightAngleScore stays 0 regardless of the corner geometry. -/
theorem convexity_fields_spec (ps : List Point) (f : Features)
    (hf : extractFeatures ps = some f) :
    (f.isClosed = true ∧ 3 ≤ f.corners →
      (f.isConvex = false ↔ SignChange (crossList (vertsOfClean (cleanPoints ps)))) ∧
      f.rightAngleScore = (raCount (vertsOfClean (cleanPoints ps)) : ℝ) /
        ((vertsOfClean (cleanPoints ps)).length : ℝ) ∧
      0 ≤ f.rightAngleScore ∧ f.rightAngleScore ≤ 1) ∧
    (¬ (f.isClosed = true ∧ 3 ≤ f.corners) →
      f.isConvex = true ∧ f.rightAngleScore = 0) := by
  obtain ⟨-, -, -, hrec⟩ := extractFeatures_some_inv hf
  have hlen := scan_corners_eq_length (cleanPoints ps)
  constructor
  · rintro ⟨hcl, hc3⟩
    rw [hrec] at hcl hc3 ⊢
    simp only at hcl hc3
    have hcond : isClosedOf (cleanPoints ps) = true ∧
        3 ≤ (scanOfClean (cleanPoints ps)).cornerIndices.length := by
      exact ⟨hcl, hlen ▸ hc3⟩
    simp only [if_pos hcond]
    have hm : 3 ≤ (vertsOfClean (cleanPoints ps)).length := by
      unfold vertsOfClean
      rw [List.length_map]
      exact hcond.2
    have hmpos : (0 : ℝ) < ((vertsOfClean (cleanPoints ps)).length : ℝ) := by
      have : 0 < (vertsOfClean (cleanPoints ps)).length := by omega
      exact_mod_cast this
    refine ⟨?_, rfl, ?_, ?_⟩
    · constructor
      · intro hconv
        exact (isConvexOf_false_iff _).mp hconv
      · intro hsc
        exact (isConvexOf_false_iff _).mpr hsc
    · unfold rightAngleScoreOf
      positivity
    · unfold rightAngleScoreOf raCount
      rw [div_le_one hmpos]
      have hcount := List.countP_le_length
        (p := fun i => decide (raCondAt (vertsOfClean (cleanPoints ps))
          (vertsOfClean (cleanPoints ps)).length i))
        (l := List.range (vertsOfClean (cleanPoints ps)).length)
      have hrange : (List.range (vertsOfClean (cleanPoints ps)).length).length =
          (vertsOfClean (cleanPoints ps)).length := List.length_range _
      exact_mod_cast hrange ▸ hcount
  · intro hneg
    rw [hrec] at hneg ⊢
    simp only at hneg
    have hcond : ¬ (isClosedOf (cleanPoints ps) = true ∧
        3 ≤ (scanOfClean (cleanPoints ps)).cornerIndices.length) := by
      intro ⟨h1, h2⟩
      exact hneg ⟨h1, hlen ▸ h2⟩
    simp only [if_neg hcond]
    simp

/-! ### Rational reduction lemmas for concrete evaluation -/

theorem two_lt_ptDist (a b : Point) :
    2 < ptDist a b ↔ 4 < (b.1 - a.1) ^ 2 + (b.2 - a.2) ^ 2 := by
  unfold ptDist
  rw [lt_jsHypot_iff (by norm_num)]
  norm_num

theorem ptDist_lt_iff {c : ℝ} (hc : 0 < c) (a b : Point) :
    ptDist a b < c ↔ (b.1 - a.1) ^ 2 + (b.2 - a.2) ^ 2 < c ^ 2 := by
  unfold ptDist
  exact jsHypot_lt_iff hc _ _

theorem jsHypot_lt_five (x y : ℝ) : jsHypot x y < 5 ↔ x ^ 2 + y ^ 2 < 25 := by
  rw [jsHypot_lt_iff (by norm_num)]
  norm_num

theorem turnAngle_band_iff (sm : List Point) (n la i : ℕ)
    (h1 : 0 < (cornerVecs sm n la i).1.1 ^ 2 + (cornerVecs sm n la i).1.2 ^ 2)
    (h2 : 0 < (cornerVecs sm n la i).2.1 ^ 2 + (cornerVecs sm n la i).2.2 ^ 2) :
    (Real.pi / 4 < turnAngle sm n la i ∧ turnAngle sm n la i < 3 * Real.pi / 4) ↔
      2 * ((cornerVecs sm n la i).1.1 * (cornerVecs sm n la i).2.1 +
          (cornerVecs sm n la i).1.2 * (cornerVecs sm n la i).2.2) ^ 2 <
        ((cornerVecs sm n la i).1.1 ^ 2 + (cornerVecs sm n la i).1.2 ^ 2) *
          ((cornerVecs sm n la i).2.1 ^ 2 + (cornerVecs sm n la i).2.2 ^ 2) := by
  unfold turnAngle
  exact turn_band_iff h1 h2

theorem isClosedOf_false {l : List Point}
    (h : ¬ startEndDistOf l < min (widthOf l) (heightOf l) * 0.15) :
    isClosedOf l = false := by
  simp [isClosedOf, h]

theorem isClosedOf_true {l : List Point}
    (h : startEndDistOf l < min (widthOf l) (heightOf l) * 0.15) :
    isClosedOf l = true := by
  simp [isClosedOf, h]

/-! ### A straight horizontal stroke of 16 points -/

/-- A 16-point straight horizontal stroke, 10 units between samples. -/
def line16 : List Point :=
  [(0, 0), (10, 0), (20, 0), (30, 0), (40, 0), (50, 0), (60, 0), (70, 0),
   (80, 0), (90, 0), (100, 0), (110, 0), (120, 0), (130, 0), (140, 0), (150, 0)]

theorem line16_clean : cleanPoints line16 = line16 := by
  norm_num [line16, cleanPoints, cleanGo, two_lt_ptDist]

theorem line16_minX : minXOf line16 = 0 := by
  norm_num [line16, minXOf, jsMinList, min_def]

theorem line16_maxX : maxXOf line16 = 150 := by
  norm_num [line16, maxXOf, jsMaxList, max_def]

theorem line16_minY : minYOf line16 = 0 := by
  norm_num [line16, minYOf, jsMinList, min_def]

theorem line16_maxY : maxYOf line16 = 0 := by
  norm_num [line16, maxYOf, jsMaxList, max_def]

theorem line16_width : widthOf line16 = 150 := by
  rw [widthOf, line16_minX, line16_maxX]
  norm_num

theorem line16_height : heightOf line16 = 0 := by
  rw [heightOf, line16_minY, line16_maxY]
  norm_num

theorem line16_closed : isClosedOf line16 = false := by
  refine isClosedOf_false ?_
  rw [line16_width, line16_height]
  have : startEndDistOf line16 = 150 := by
    norm_num [startEndDistOf, line16, List.getD, ptDist, jsHypot_zero_right]
  rw [this]
  norm_num

/-- First smoothing pass of line16. -/
def lineSm1 : List Point :=
  [(5, 0), (25/2, 0), (20, 0), (30, 0), (40, 0), (50, 0), (60, 0), (70, 0),
   (80, 0), (90, 0), (100, 0), (110, 0), (120, 0), (130, 0), (275/2, 0), (145, 0)]

/-- Second smoothing pass of line16. -/
def lineSm2 : List Point :=
  [(35/4, 0), (15, 0), (85/4, 0), (245/8, 0), (40, 0), (50, 0), (60, 0), (70, 0),
   (80, 0), (90, 0), (100, 0), (110, 0), (955/8, 0), (515/4, 0), (135, 0), (565/4, 0)]

theorem line16_sm1 : smoothPass false line16 = lineSm1 := by
  norm_num [line16, lineSm1, smoothPass, List.range_succ, List.getD]

theorem line16_sm2 : smoothPass false lineSm1 = lineSm2 := by
  norm_num [lineSm1, lineSm2, smoothPass, List.range_succ, List.getD]

theorem line16_smoothed : smoothedOfClean line16 = lineSm2 := by
  rw [smoothedOfClean, line16_closed, smoothTwice, line16_sm1, line16_sm2]

theorem line16_path : pathLength lineSm2 = 265 / 2 := by
  norm_num [lineSm2, pathLength, ptDist, jsHypot_zero_right, abs_of_pos]

theorem line16_sd : sdOfClean line16 = 265 / 2 := by
  rw [sdOfClean, line16_smoothed]
  norm_num [lineSm2, List.getD, ptDist, jsHypot_zero_right, abs_of_pos]

theorem line16_cands : cornerCandidates 16 false = [2, 3, 4, 5, 6, 7, 8, 9, 10, 11, 12] := by
  decide

theorem line16_scan : scanOfClean line16 = ⟨0, [], []⟩ := by
  rw [scanOfClean, line16_smoothed, line16_closed, cornerScan]
  have hlen : lineSm2.length = 16 := by norm_num [lineSm2]
  rw [hlen, line16_cands]
  have hla : cornerLookahead 16 = 2 := by decide
  rw [hla]
  norm_num [cornerStep, cornerVecs, lineSm2, List.getD, jsHypot_lt_five,
    turnAngle_band_iff]

/-- The feature record of line16. -/
def lineF : Features :=
  { width := 150, height := 0, aspect := 150, isClosed := false, straightness := 1,
    squareness := 0, minX := 0, minY := 0, maxX := 150, maxY := 0, corners := 0,
    circularity := 0, cornerAngles := [], diagonal := 150, isConvex := true,
    rightAngleScore := 0, startX := 35/4, startY := 0, endX := 565/4, endY := 0 }

theorem line16_extract : extractFeatures line16 = some lineF := by
  simp only [extractFeatures, line16_clean]
  rw [if_neg (by norm_num [line16]), if_neg (by norm_num [line16]),
    if_neg (by rw [line16_closed]; simp)]
  refine congrArg some ?_
  rw [lineF]
  simp only [Features.mk.injEq, line16_width, line16_height, line16_minX,
    line16_minY, line16_maxX, line16_maxY, line16_closed, line16_sd,
    line16_path, line16_smoothed, line16_scan]
  norm_num [max_def, min_def, jsHypot_zero_right, lineSm2, List.getD]

theorem line16_logits :
    logits lineF = [452, -596/5, 17/2, -5/2, -29/2, -185/2, -179/2] := by
  norm_num [logits, zLine, zCircle, zRect, zSquare, zTriangle, zHexagon,
    zPentagon, lineF, bnum, min_def, max_def, abs_of_nonneg]

theorem line16_maxZ : jsMaxList (logits lineF) = 452 := by
  rw [line16_logits]
  norm_num [jsMaxList, max_def]

theorem exp_le_one_div {z b : ℝ} (hb : 1 ≤ b) (h : z + b ≤ 1) :
    Real.exp z ≤ 1 / b := by
  have h1 : Real.exp z ≤ Real.exp (-(b - 1)) := Real.exp_le_exp.mpr (by linarith)
  have h2 : b ≤ Real.exp (b - 1) := by
    have := Real.add_one_le_exp (b - 1)
    linarith
  have h3 : Real.exp (-(b - 1)) = (Real.exp (b - 1))⁻¹ := Real.exp_neg _
  have h4 : (Real.exp (b - 1))⁻¹ ≤ b⁻¹ :=
    inv_le_inv_of_le (by linarith) h2
  rw [h3] at h1
  calc Real.exp z ≤ (Real.exp (b - 1))⁻¹ := h1
    _ ≤ b⁻¹ := h4
    _ = 1 / b := (one_div _).symm

theorem line16_softmax_bound :
    0.6 ≤ jsMaxList (softmaxProbs (logits lineF)) := by
  rw [line16_logits]
  unfold softmaxProbs
  have hmax : jsMaxList [(452 : ℝ), -596/5, 17/2, -5/2, -29/2, -185/2, -179/2] = 452 := by
    norm_num [jsMaxList, max_def]
  rw [hmax]
  simp only [List.map_cons, List.map_nil]
  have e0 : Real.exp ((452 : ℝ) - 452) = 1 := by norm_num [Real.exp_zero]
  have e1 : Real.exp ((-596/5 : ℝ) - 452) ≤ 1/444 := by
    refine exp_le_one_div (by norm_num) (by norm_num)
  have e2 : Real.exp ((17/2 : ℝ) - 452) ≤ 1/444 := by
    refine exp_le_one_div (by norm_num) (by norm_num)
  have e3 : Real.exp ((-5/2 : ℝ) - 452) ≤ 1/444 := by
    refine exp_le_one_div (by norm_num) (by norm_num)
  have e4 : Real.exp ((-29/2 : ℝ) - 452) ≤ 1/444 := by
    refine exp_le_one_div (by norm_num) (by norm_num)
  have e5 : Real.exp ((-185/2 : ℝ) - 452) ≤ 1/444 := by
    refine exp_le_one_div (by norm_num) (by norm_num)
  have e6 : Real.exp ((-179/2 : ℝ) - 452) ≤ 1/444 := by
    refine exp_le_one_div (by norm_num) (by norm_num)
  have p1 : (0:ℝ) < Real.exp ((-596/5 : ℝ) - 452) := Real.exp_pos _
  have p2 : (0:ℝ) < Real.exp ((17/2 : ℝ) - 452) := Real.exp_pos _
  have p3 : (0:ℝ) < Real.exp ((-5/2 : ℝ) - 452) := Real.exp_pos _
  have p4 : (0:ℝ) < Real.exp ((-29/2 : ℝ) - 452) := Real.exp_pos _
  have p5 : (0:ℝ) < Real.exp ((-185/2 : ℝ) - 452) := Real.exp_pos _
  have p6 : (0:ℝ) < Real.exp ((-179/2 : ℝ) - 452) := Real.exp_pos _
  set S := jsSum [Real.exp ((452 : ℝ) - 452), Real.exp ((-596/5 : ℝ) - 452),
    Real.exp ((17/2 : ℝ) - 452), Real.exp ((-5/2 : ℝ) - 452),
    Real.exp ((-29/2 : ℝ) - 452), Real.exp ((-185/2 : ℝ) - 452),
    Real.exp ((-179/2 : ℝ) - 452)] with hSdef
  have hSval : S = Real.exp ((452 : ℝ) - 452) + Real.exp ((-596/5 : ℝ) - 452) +
      Real.exp ((17/2 : ℝ) - 452) + Real.exp ((-5/2 : ℝ) - 452) +
      Real.exp ((-29/2 : ℝ) - 452) + Real.exp ((-185/2 : ℝ) - 452) +
      Real.exp ((-179/2 : ℝ) - 452) := by
    rw [hSdef]
    simp only [jsSum, List.foldl_cons, List.foldl_nil]
    ring
  have hS1 : 1 ≤ S := by rw [hSval, e0]; linarith
  have hS2 : S ≤ 1 + 6/444 := by rw [hSval, e0]; linarith
  have hmaxS : max 1e-8 S = S := max_eq_right (le_trans (by norm_num) hS1)
  rw [hmaxS]
  have hfirst : Real.exp ((452 : ℝ) - 452) / S = 1 / S := by rw [e0]
  refine le_trans ?_ (le_jsMaxList (List.mem_cons_self _ _))
  rw [hfirst]
  rw [le_div_iff (by linarith)]
  linarith

theorem line16_pp : predictProbs lineF = some (softmaxProbs (logits lineF)) :=
  predictProbs_eq_some_iff lineF (not_lt.mpr line16_softmax_bound)

theorem line16_heur :
    heuristicRecognize line16 = some (.line [35/4, 0, 565/4, 0]) := by
  simp only [heuristicRecognize, line16_extract]
  rw [if_pos (by norm_num [lineF])]
  norm_num [lineF]

theorem line16_recognize_false :
    recognizeShape false line16 =
      some ⟨"line", 0.5, some (.line [35/4, 0, 565/4, 0])⟩ := by
  unfold recognizeShape
  rw [if_pos rfl]
  unfold heurResult
  rw [line16_heur]
  rfl

/-- Witness for C9: the heuristic recognition of the straight stroke is
returned with confidence exactly 0.5, which satisfies the invariant. -/
theorem recognizeShape_confidence_invariant_witness :
    recognizeShape false line16 =
      some ⟨"line", 0.5, some (.line [35/4, 0, 565/4, 0])⟩ ∧
    ((0.5 : ℝ) = 0.5 ∨ (0.6 ≤ (0.5 : ℝ) ∧ (0.5 : ℝ) ≤ 1)) :=
  ⟨line16_recognize_false,
    recognizeShape_confidence_invariant false line16 _ line16_recognize_false⟩

/-- Witness for C2: on the straight stroke the best softmax probability is
at least 0.6, predictProbs answers, and recognizeShape returns the argmax
class with that probability as confidence. -/
theorem classifier_gate_spec_witness :
    predictProbs lineF = some (softmaxProbs (logits lineF)) ∧
    recognizeShape true line16 =
      some ⟨shapeClasses.getD
          (jsIndexOf (softmaxProbs (logits lineF))
            (jsMaxList (softmaxProbs (logits lineF)))) "",
        jsMaxList (softmaxProbs (logits lineF)),
        jsOr
          (convertToShape line16
            (shapeClasses.getD
              (jsIndexOf (softmaxProbs (logits lineF))
                (jsMaxList (softmaxProbs (logits lineF)))) ""))
          (heuristicRecognize line16)⟩ :=
  (classifier_gate_spec line16 lineF line16_extract).2 line16_softmax_bound

/-- Witness for C10: on the classifier path of the straight stroke the
convertToShape object exists and is the features payload of the result. -/
theorem classifier_path_features_total_witness :
    ∃ s : Shape,
      convertToShape line16
        (shapeClasses.getD
          (jsIndexOf (softmaxProbs (logits lineF))
            (jsMaxList (softmaxProbs (logits lineF)))) "") = some s ∧
      recognizeShape true line16 =
        some ⟨shapeClasses.getD
            (jsIndexOf (softmaxProbs (logits lineF))
              (jsMaxList (softmaxProbs (logits lineF)))) "",
          (softmaxProbs (logits lineF)).getD
            (jsIndexOf (softmaxProbs (logits lineF))
              (jsMaxList (softmaxProbs (logits lineF)))) 0, some s⟩ :=
  classifier_path_features_total line16 lineF (softmaxProbs (logits lineF))
    line16_extract line16_pp

/-- Witness for C7: the straight stroke is open, so the convexity flag and
right-angle score keep their defaults. -/
theorem convexity_fields_spec_witness :
    lineF.isConvex = true ∧ lineF.rightAngleScore = 0 :=
  (convexity_fields_spec line16 lineF line16_extract).2 (by simp [lineF])

/-- Witness for C4: index 2 is a candidate of an open 16-point loop, and a
concrete right-angle turn with 10-unit segments qualifies as a corner. -/
theorem cornerCandidates_and_band_spec_witness :
    (2 : ℕ) ∈ cornerCandidates 16 false ∧
    (cornerStep [((0:ℝ), (0:ℝ)), (10, 0), (10, 10)] 3 1 60 ⟨0, [], []⟩ 1).corners
      = 0 + 1 := by
  constructor
  · exact (cornerCandidates_and_band_spec.1 16 false 2).mpr (by decide)
  · have hv : cornerVecs [((0:ℝ), (0:ℝ)), (10, 0), (10, 10)] 3 1 1 =
        ((10, 0), (0, 10)) := by
      norm_num [cornerVecs, List.getD]
    have hd1 : ¬ jsHypot (cornerVecs [((0:ℝ), (0:ℝ)), (10, 0), (10, 10)] 3 1 1).1.1
        (cornerVecs [((0:ℝ), (0:ℝ)), (10, 0), (10, 10)] 3 1 1).1.2 < 5 := by
      rw [hv]
      norm_num [jsHypot_lt_five]
    have hd2 : ¬ jsHypot (cornerVecs [((0:ℝ), (0:ℝ)), (10, 0), (10, 10)] 3 1 1).2.1
        (cornerVecs [((0:ℝ), (0:ℝ)), (10, 0), (10, 10)] 3 1 1).2.2 < 5 := by
      rw [hv]
      norm_num [jsHypot_lt_five]
    refine (cornerCandidates_and_band_spec.2
      [((0:ℝ), (0:ℝ)), (10, 0), (10, 10)] 3 1 60 0 [] 1 hd1 hd2).mpr ?_
    rw [turnAngle_band_iff _ _ _ _ (by rw [hv]; norm_num) (by rw [hv]; norm_num)]
    rw [hv]
    norm_num

/-! ### An open staircase stroke with four detected corners -/

/-- An open staircase stroke: five axis-aligned runs with tight sample
clusters at its four corners, so the corner detector fires at lookahead 2. -/
def zig3 : List Point :=
  [(0, 0), (12, 0), (24, 0), (33, 0),
   (36, 0), (39, 0), (39, 3), (39, 6),
   (39, 15), (39, 24), (39, 27), (39, 30),
   (42, 30), (45, 30), (54, 30), (63, 30),
   (66, 30), (69, 30), (69, 33), (69, 36),
   (69, 45), (69, 54), (69, 57), (69, 60),
   (72, 60), (75, 60), (84, 60), (96, 60),
   (108, 60)]

/-- First smoothing pass of zig3. -/
def zigSm1 : List Point :=
  [(6, 0), (57/4, 0), (21, 0),
   (117/4, 0), (135/4, 3/4), (75/2, 3/2),
   (153/4, 21/4), (39, 9), (39, 15),
   (39, 21), (159/4, 99/4), (81/2, 57/2),
   (177/4, 117/4), (48, 30), (54, 30),
   (60, 30), (255/4, 123/4), (135/2, 63/2),
   (273/4, 141/4), (69, 39), (69, 45),
   (69, 51), (279/4, 219/4), (141/2, 117/2),
   (297/4, 237/4), (315/4, 60), (87, 60),
   (375/4, 60), (102, 60)]

/-- Second smoothing pass of zig3. -/
def zigSm2 : List Point :=
  [(39/4, 0), (255/16, 0), (327/16, 3/16),
   (441/16, 3/8), (507/16, 27/16), (573/16, 3),
   (597/16, 105/16), (309/8, 81/8), (39, 15),
   (315/8, 159/8), (651/16, 375/16), (42, 27),
   (729/16, 453/16), (393/8, 237/8), (54, 30),
   (471/8, 243/8), (999/16, 507/16), (66, 33),
   (1077/16, 585/16), (549/8, 321/8), (69, 45),
   (555/8, 399/8), (1131/16, 855/16), (1155/16, 57),
   (1221/16, 933/16), (1287/16, 477/8), (1401/16, 957/16),
   (1473/16, 60), (393/4, 60)]

theorem zig3_clean : cleanPoints zig3 = zig3 := by
  norm_num [zig3, cleanPoints, cleanGo, two_lt_ptDist]

theorem zig3_minX : minXOf zig3 = 0 := by
  norm_num [zig3, minXOf, jsMinList, min_def]

theorem zig3_maxX : maxXOf zig3 = 108 := by
  norm_num [zig3, maxXOf, jsMaxList, max_def]

theorem zig3_minY : minYOf zig3 = 0 := by
  norm_num [zig3, minYOf, jsMinList, min_def]

theorem zig3_maxY : maxYOf zig3 = 60 := by
  norm_num [zig3, maxYOf, jsMaxList, max_def]

theorem zig3_width : widthOf zig3 = 108 := by
  rw [widthOf, zig3_minX, zig3_maxX]
  norm_num

theorem zig3_height : heightOf zig3 = 60 := by
  rw [heightOf, zig3_minY, zig3_maxY]
  norm_num

theorem zig3_closed : isClosedOf zig3 = false := by
  refine isClosedOf_false ?_
  rw [zig3_width, zig3_height]
  rw [show min (108:ℝ) 60 * 0.15 = 9 by norm_num]
  rw [startEndDistOf]
  rw [ptDist_lt_iff (by norm_num)]
  norm_num [zig3, List.getD]

set_option maxHeartbeats 2000000 in
theorem zig3_sm1 : smoothPass false zig3 = zigSm1 := by
  norm_num [zig3, zigSm1, smoothPass, List.range_succ, List.getD]

set_option maxHeartbeats 2000000 in
theorem zig3_sm2 : smoothPass false zigSm1 = zigSm2 := by
  norm_num [zigSm1, zigSm2, smoothPass, List.range_succ, List.getD]

theorem zig3_smoothed : smoothedOfClean zig3 = zigSm2 := by
  rw [smoothedOfClean, zig3_closed, smoothTwice, zig3_sm1, zig3_sm2]

theorem zig3_cands : cornerCandidates 29 false =
    [2, 3, 4, 5, 6, 7, 8, 9, 10, 11, 12, 13, 14, 15, 16, 17, 18, 19, 20, 21,
     22, 23, 24, 25] := by decide

set_option maxHeartbeats 4000000 in
theorem zig3_scan : (scanOfClean zig3).corners = 4 ∧
    (scanOfClean zig3).cornerIndices = [5, 11, 17, 23] := by
  have hscan : scanOfClean zig3 =
      cornerScan zigSm2 false 60 := by
    rw [scanOfClean, zig3_smoothed, zig3_closed, zig3_width, zig3_height]
    norm_num
  rw [hscan, cornerScan]
  have hlen : zigSm2.length = 29 := by norm_num [zigSm2]
  rw [hlen, zig3_cands]
  have hla : cornerLookahead 29 = 2 := by decide
  rw [hla]
  norm_num [cornerStep, cornerVecs, zigSm2, List.getD, jsHypot_lt_five,
    turnAngle_band_iff, ptDist_lt_iff]

theorem zig3_verts : vertsOfClean zig3 =
    [(573/16, 3), (42, 27), (66, 33), (1155/16, 57)] := by
  rw [vertsOfClean, zig3_scan.2, zig3_smoothed]
  norm_num [zigSm2, List.getD]

theorem zig3_crosses :
    crossList [((573:ℝ)/16, (3:ℝ)), (42, 27), (66, 33), (1155/16, 57)] =
      [-4311/8, 4311/8, 4311/8, -4311/8] := by
  norm_num [crossList, crossAt, List.range_succ, List.getD]

theorem zig3_signchange : SignChange (crossList (vertsOfClean zig3)) := by
  rw [zig3_verts, zig3_crosses]
  constructor
  · exact ⟨4311/8, by norm_num, by norm_num⟩
  · exact ⟨-4311/8, by norm_num, by norm_num⟩

theorem zig3_extract_proj :
    ∃ f, extractFeatures zig3 = some f ∧ f.corners = 4 ∧ f.isConvex = true := by
  simp only [extractFeatures, zig3_clean]
  rw [if_neg (by norm_num [zig3]), if_neg (by norm_num [zig3]),
    if_neg (by rw [zig3_closed]; simp)]
  refine ⟨_, rfl, ?_, ?_⟩
  · exact zig3_scan.1
  · show (if isClosedOf zig3 = true ∧ 3 ≤ (scanOfClean zig3).cornerIndices.length
      then isConvexOf (vertsOfClean zig3) else true) = true
    rw [zig3_closed]
    simp

/-- C7 counterexample: the open staircase zig3 has four detected corners
whose cross products change sign, yet its convexity flag stays true,
because the source computes convexity only for closed strokes; so the
claim, which ties the flag to the corner geometry whenever at least 3
corners exist, is false. -/
theorem convexity_open_counterexample :
    ¬ (∀ (ps : List Point) (f : Features), extractFeatures ps = some f →
        3 ≤ f.corners →
        ((f.isConvex = false ↔
            SignChange (crossList (vertsOfClean (cleanPoints ps)))) ∧
          f.rightAngleScore = (raCount (vertsOfClean (cleanPoints ps)) : ℝ) /
            ((vertsOfClean (cleanPoints ps)).length : ℝ))) := by
  intro hclaim
  obtain ⟨f, hf, hc, hconv⟩ := zig3_extract_proj
  have h := hclaim zig3 f hf (by omega)
  have hsc : SignChange (crossList (vertsOfClean (cleanPoints zig3))) := by
    rw [zig3_clean]
    exact zig3_signchange
  have hfalse : f.isConvex = false := h.1.mpr hsc
  rw [hconv] at hfalse
  cases hfalse

/-! ### The dense 64-point circle of radius 100 -/

/-- The sampling angle of the k-th point, 2 pi k / 64. -/
def circAng (k : ℕ) : ℝ := 2 * Real.pi * k / 64

/-- A 64-point circle of radius r centred at the origin. -/
def scaledCircle (r : ℝ) : List Point :=
  (List.range 64).map fun k => (r * Real.cos (circAng k), r * Real.sin (circAng k))

/-- The 64-point circle of radius 100 centred at the origin from the spec. -/
def circle64 : List Point := scaledCircle 100

/-- The per-pass shrink factor of the closed smoothing on the sampled
circle: (1 + cos(pi/16)) / 2. -/
def csm : ℝ := (1 + Real.cos (Real.pi / 16)) / 2

theorem cos_pi32_bounds :
    0.995 < Real.cos (Real.pi / 32) ∧ Real.cos (Real.pi / 32) < 0.996 := by
  have hpi1 := Real.pi_gt_d4
  have hpi2 := Real.pi_lt_d4
  set x := Real.pi / 32 with hx
  have hx1 : 0.0981 < x := by rw [hx]; linarith
  have hx2 : x < 0.0982 := by rw [hx]; linarith
  have hxpos : 0 < x := by linarith
  have hxabs : |x| = x := abs_of_pos hxpos
  have hb := Real.cos_bound (x := x) (by rw [hxabs]; linarith)
  rw [hxabs, abs_sub_le_iff] at hb
  have h2u : x ^ 2 < 0.0982 ^ 2 := by nlinarith
  have h2l : 0.0981 ^ 2 < x ^ 2 := by nlinarith
  have h4u : x ^ 4 < 0.0982 ^ 4 := by nlinarith
  constructor
  · nlinarith [hb.2]
  · nlinarith [hb.1]

theorem cos_pi16_gt : 0.9806 < Real.cos (Real.pi / 16) := by
  have hpi1 := Real.pi_gt_d4
  have hpi2 := Real.pi_lt_d4
  set x := Real.pi / 16 with hx
  have hx1 : 0.196 < x := by rw [hx]; linarith
  have hx2 : x < 0.19635 := by rw [hx]; linarith
  have hxpos : 0 < x := by linarith
  have hxabs : |x| = x := abs_of_pos hxpos
  have hb := Real.cos_bound (x := x) (by rw [hxabs]; linarith)
  rw [hxabs, abs_sub_le_iff] at hb
  have h2u : x ^ 2 < 0.19635 ^ 2 := by nlinarith
  have h4u : x ^ 4 < 0.19635 ^ 4 := by nlinarith
  nlinarith [hb.2]

theorem cos_3pi32_bounds :
    0.95 < Real.cos (3 * Real.pi / 32) ∧ Real.cos (3 * Real.pi / 32) < 0.96 := by
  have hpi1 := Real.pi_gt_d4
  have hpi2 := Real.pi_lt_d4
  set x := 3 * Real.pi / 32 with hx
  have hx1 : 0.294 < x := by rw [hx]; linarith
  have hx2 : x < 0.2946 := by rw [hx]; linarith
  have hxpos : 0 < x := by linarith
  have hxabs : |x| = x := abs_of_pos hxpos
  have hb := Real.cos_bound (x := x) (by rw [hxabs]; linarith)
  rw [hxabs, abs_sub_le_iff] at hb
  have h2u : x ^ 2 < 0.2946 ^ 2 := by nlinarith
  have h2l : 0.294 ^ 2 < x ^ 2 := by nlinarith
  have h4u : x ^ 4 < 0.2946 ^ 4 := by nlinarith
  constructor
  · nlinarith [hb.2]
  · nlinarith [hb.1]

theorem csm_bounds : 0.99 < csm ∧ csm ≤ 1 := by
  unfold csm
  constructor
  · linarith [cos_pi16_gt]
  · linarith [Real.cos_le_one (Real.pi / 16)]

/-- Squared chord length between two points of a circle of radius r. -/
theorem chordSq (r a b : ℝ) :
    (r * Real.cos a - r * Real.cos b) ^ 2 + (r * Real.sin a - r * Real.sin b) ^ 2 =
      2 * r ^ 2 - 2 * r ^ 2 * Real.cos (a - b) := by
  have h1 := Real.sin_sq_add_cos_sq a
  have h2 := Real.sin_sq_add_cos_sq b
  have h3 := Real.cos_sub a b
  nlinarith [h1, h2, h3]

/-- Dot product of consecutive chord vectors of a circle of radius r. -/
theorem chordDot (r a b c : ℝ) :
    (r * Real.cos b - r * Real.cos a) * (r * Real.cos c - r * Real.cos b) +
      (r * Real.sin b - r * Real.sin a) * (r * Real.sin c - r * Real.sin b) =
      r ^ 2 * (Real.cos (c - b) + Real.cos (b - a) - Real.cos (c - a) - 1) := by
  have h1 := Real.sin_sq_add_cos_sq b
  have h2 := Real.cos_sub c b
  have h3 := Real.cos_sub b a
  have h4 := Real.cos_sub c a
  nlinarith [h1, h2, h3, h4]

theorem getD_map_range {g : ℕ → Point} {n j : ℕ} (h : j < n) (d : Point) :
    ((List.range n).map g).getD j d = g j := by
  rw [List.getD_eq_getElem?_getD, List.getElem?_map, List.getElem?_range h]
  rfl

theorem cos_circAng_mod (j : ℕ) :
    Real.cos (circAng (j % 64)) = Real.cos (circAng j) := by
  have hj : (j : ℝ) = ((j % 64 : ℕ) : ℝ) + 64 * ((j / 64 : ℕ) : ℝ) := by
    exact_mod_cast (Nat.mod_add_div j 64).symm
  have hang : circAng j = circAng (j % 64) + (j / 64 : ℕ) * (2 * Real.pi) := by
    unfold circAng
    rw [hj]
    ring
  rw [hang, Real.cos_add_nat_mul_two_pi]

theorem sin_circAng_mod (j : ℕ) :
    Real.sin (circAng (j % 64)) = Real.sin (circAng j) := by
  have hj : (j : ℝ) = ((j % 64 : ℕ) : ℝ) + 64 * ((j / 64 : ℕ) : ℝ) := by
    exact_mod_cast (Nat.mod_add_div j 64).symm
  have hang : circAng j = circAng (j % 64) + (j / 64 : ℕ) * (2 * Real.pi) := by
    unfold circAng
    rw [hj]
    ring
  rw [hang, Real.sin_add_nat_mul_two_pi]

theorem scaledCircle_length (r : ℝ) : (scaledCircle r).length = 64 := by
  simp [scaledCircle]

theorem scaledCircle_getD (r : ℝ) {j : ℕ} (h : j < 64) (d : Point) :
    (scaledCircle r).getD j d = (r * Real.cos (circAng j), r * Real.sin (circAng j)) := by
  unfold scaledCircle
  exact getD_map_range h d

theorem circle64_clean : cleanPoints circle64 = circle64 := by
  apply cleanPoints_of_chain
  unfold circle64 scaledCircle
  rw [List.chain'_map]
  rw [show (64 : ℕ) = 63 + 1 from by norm_num, List.chain'_range_succ]
  intro m _
  rw [two_lt_ptDist]
  simp only
  rw [chordSq 100 (circAng (m + 1)) (circAng m)]
  rw [show circAng (m + 1) - circAng m = Real.pi / 32 from by unfold circAng; push_cast; ring]
  nlinarith [cos_pi32_bounds.2]

theorem circle64_maxX : maxXOf circle64 = 100 := by
  unfold maxXOf circle64 scaledCircle
  rw [List.map_map]
  apply jsMaxList_eq
  · refine List.mem_map.mpr ⟨0, by simp, ?_⟩
    simp [Function.comp, circAng]
  · intro x hx
    obtain ⟨k, _, rfl⟩ := List.mem_map.mp hx
    have := Real.cos_le_one (circAng k)
    simp only [Function.comp]
    nlinarith

theorem circle64_minX : minXOf circle64 = -100 := by
  unfold minXOf circle64 scaledCircle
  rw [List.map_map]
  apply jsMinList_eq
  · refine List.mem_map.mpr ⟨32, by simp, ?_⟩
    simp only [Function.comp]
    rw [show circAng 32 = Real.pi from by unfold circAng; push_cast; ring, Real.cos_pi]
    norm_num
  · intro x hx
    obtain ⟨k, _, rfl⟩ := List.mem_map.mp hx
    have := Real.neg_one_le_cos (circAng k)
    simp only [Function.comp]
    nlinarith

theorem circle64_maxY : maxYOf circle64 = 100 := by
  unfold maxYOf circle64 scaledCircle
  rw [List.map_map]
  apply jsMaxList_eq
  · refine List.mem_map.mpr ⟨16, by simp, ?_⟩
    simp only [Function.comp]
    rw [show circAng 16 = Real.pi / 2 from by unfold circAng; push_cast; ring,
      Real.sin_pi_div_two]
    norm_num
  · intro x hx
    obtain ⟨k, _, rfl⟩ := List.mem_map.mp hx
    have := Real.sin_le_one (circAng k)
    simp only [Function.comp]
    nlinarith

theorem circle64_minY : minYOf circle64 = -100 := by
  unfold minYOf circle64 scaledCircle
  rw [List.map_map]
  apply jsMinList_eq
  · refine List.mem_map.mpr ⟨48, by simp, ?_⟩
    simp only [Function.comp]
    rw [show circAng 48 = Real.pi + Real.pi / 2 from by unfold circAng; push_cast; ring,
      Real.sin_add, Real.sin_pi, Real.cos_pi, Real.sin_pi_div_two]
    norm_num
  · intro x hx
    obtain ⟨k, _, rfl⟩ := List.mem_map.mp hx
    have := Real.neg_one_le_sin (circAng k)
    simp only [Function.comp]
    nlinarith

theorem circle64_width : widthOf circle64 = 200 := by
  rw [widthOf, circle64_maxX, circle64_minX]
  norm_num

theorem circle64_height : heightOf circle64 = 200 := by
  rw [heightOf, circle64_maxY, circle64_minY]
  norm_num

theorem circle64_closed : isClosedOf circle64 = true := by
  apply isClosedOf_true
  rw [circle64_width, circle64_height, min_self]
  have hlen : circle64.length = 64 := scaledCircle_length 100
  unfold startEndDistOf
  rw [hlen]
  rw [show (64 : ℕ) - 1 = 63 from by norm_num]
  rw [show circle64 = scaledCircle 100 from rfl,
    scaledCircle_getD 100 (show (63 : ℕ) < 64 from by norm_num),
    scaledCircle_getD 100 (show (0 : ℕ) < 64 from by norm_num)]
  rw [ptDist_lt_iff (by norm_num)]
  simp only
  rw [chordSq 100 (circAng 0) (circAng 63)]
  rw [show circAng 0 - circAng 63 = Real.pi / 32 - 2 * Real.pi from by
    unfold circAng; push_cast; ring, Real.cos_sub_two_pi]
  nlinarith [cos_pi32_bounds.1]

theorem scaledCircle_getElem (r : ℝ) {i : ℕ} (h : i < (scaledCircle r).length) :
    (scaledCircle r)[i] = (r * Real.cos (circAng i), r * Real.sin (circAng i)) := by
  unfold scaledCircle at h ⊢
  simp [List.getElem_map, List.getElem_range]

theorem smoothPass_scaledCircle (r : ℝ) :
    smoothPass true (scaledCircle r) = scaledCircle (r * csm) := by
  apply List.ext_getElem
  · simp [smoothPass, scaledCircle]
  intro i h1 h2
  have hi : i < 64 := by simpa [scaledCircle] using h2
  simp only [smoothPass, scaledCircle_length, List.getElem_map, List.getElem_range,
    eq_self_iff_true, if_true]
  rw [scaledCircle_getElem (r * csm) h2]
  have hprev : (i + 64 - 2) % 64 < 64 := Nat.mod_lt _ (by norm_num)
  have hnext : (i + 2) % 64 < 64 := Nat.mod_lt _ (by norm_num)
  rw [scaledCircle_getD r hi, scaledCircle_getD r hprev, scaledCircle_getD r hnext]
  simp only [Prod.mk.injEq]
  rw [show i + 64 - 2 = i + 62 from by omega]
  rw [cos_circAng_mod (i + 62), sin_circAng_mod (i + 62),
    cos_circAng_mod (i + 2), sin_circAng_mod (i + 2)]
  rw [show circAng (i + 62) = circAng i - Real.pi / 16 + 2 * Real.pi from by
    unfold circAng; push_cast; ring]
  rw [show circAng (i + 2) = circAng i + Real.pi / 16 from by
    unfold circAng; push_cast; ring]
  rw [Real.cos_add_two_pi, Real.sin_add_two_pi]
  constructor
  · rw [Real.cos_sub, Real.cos_add]
    unfold csm
    ring
  · rw [Real.sin_sub, Real.sin_add]
    unfold csm
    ring

theorem circle64_smoothed : smoothedOfClean circle64 = scaledCircle (100 * csm * csm) := by
  unfold smoothedOfClean smoothTwice
  rw [circle64_closed]
  rw [show circle64 = scaledCircle 100 from rfl, smoothPass_scaledCircle,
    smoothPass_scaledCircle]

theorem circle_cornerStep_id (r mwh : ℝ) (st : CornerState) {i : ℕ}
    (h3 : 3 ≤ i) (h60 : i ≤ 60) :
    cornerStep (scaledCircle r) 64 3 mwh st i = st := by
  have hi : i < 64 := by omega
  have him : i - 3 < 64 := by omega
  have hip : (i + 3) % 64 = i + 3 := Nat.mod_eq_of_lt (by omega)
  have hv : cornerVecs (scaledCircle r) 64 3 i =
      ((r * Real.cos (circAng i) - r * Real.cos (circAng (i - 3)),
        r * Real.sin (circAng i) - r * Real.sin (circAng (i - 3))),
       (r * Real.cos (circAng (i + 3)) - r * Real.cos (circAng i),
        r * Real.sin (circAng (i + 3)) - r * Real.sin (circAng i))) := by
    unfold cornerVecs
    rw [hip, scaledCircle_getD r hi, scaledCircle_getD r him,
      scaledCircle_getD r (show i + 3 < 64 from by omega)]
  have hang1 : circAng i - circAng (i - 3) = 3 * Real.pi / 32 := by
    unfold circAng
    rw [Nat.cast_sub h3]
    push_cast
    ring
  have hang2 : circAng (i + 3) - circAng i = 3 * Real.pi / 32 := by
    unfold circAng
    push_cast
    ring
  have hang3 : circAng (i + 3) - circAng (i - 3) = 3 * Real.pi / 16 := by
    unfold circAng
    rw [Nat.cast_sub h3]
    push_cast
    ring
  simp only [cornerStep]
  by_cases hd : jsHypot (cornerVecs (scaledCircle r) 64 3 i).1.1
      (cornerVecs (scaledCircle r) 64 3 i).1.2 < 5 ∨
      jsHypot (cornerVecs (scaledCircle r) 64 3 i).2.1
        (cornerVecs (scaledCircle r) 64 3 i).2.2 < 5
  · rw [if_pos hd]
  · push_neg at hd
    have hpos1 : 0 < (cornerVecs (scaledCircle r) 64 3 i).1.1 ^ 2 +
        (cornerVecs (scaledCircle r) 64 3 i).1.2 ^ 2 := by
      rw [← jsHypot_pos_iff]
      linarith [hd.1]
    have hpos2 : 0 < (cornerVecs (scaledCircle r) 64 3 i).2.1 ^ 2 +
        (cornerVecs (scaledCircle r) 64 3 i).2.2 ^ 2 := by
      rw [← jsHypot_pos_iff]
      linarith [hd.2]
    have hband : ¬ (Real.pi / 4 < turnAngle (scaledCircle r) 64 3 i ∧
        turnAngle (scaledCircle r) 64 3 i < 3 * Real.pi / 4) := by
      rw [turnAngle_band_iff _ _ _ _ hpos1 hpos2, hv]
      simp only
      rw [not_lt]
      have e1 := chordSq r (circAng i) (circAng (i - 3))
      have e2 := chordSq r (circAng (i + 3)) (circAng i)
      have e3 := chordDot r (circAng (i - 3)) (circAng i) (circAng (i + 3))
      rw [hang1] at e1
      rw [hang2] at e2
      rw [hang1, hang2, hang3] at e3
      rw [e1, e2, e3]
      rw [show 3 * Real.pi / 16 = 2 * (3 * Real.pi / 32) from by ring, Real.cos_two_mul]
      obtain ⟨hE1, hE2⟩ := cos_3pi32_bounds
      have h2E : 1 ≤ 2 * Real.cos (3 * Real.pi / 32) ^ 2 := by nlinarith
      nlinarith [sq_nonneg (r ^ 2 * (1 - Real.cos (3 * Real.pi / 32))), h2E]
    rw [if_neg (not_or.mpr ⟨not_lt.mpr hd.1, not_lt.mpr hd.2⟩), if_neg hband]

theorem foldl_fix {α β : Type} (f : β → α → β) :
    ∀ (l : List α) (st : β), (∀ s : β, ∀ i ∈ l, f s i = s) → l.foldl f st = st := by
  intro l
  induction l with
  | nil => intro st _; rfl
  | cons a as ih =>
    intro st h
    rw [List.foldl_cons, h st a (List.mem_cons_self a as)]
    exact ih st fun s i hi => h s i (List.mem_cons_of_mem _ hi)

theorem circle_scan (r mwh : ℝ) :
    cornerScan (scaledCircle r) true mwh = ⟨0, [], []⟩ := by
  unfold cornerScan
  rw [scaledCircle_length]
  rw [show cornerLookahead 64 = 3 from by decide]
  rw [show cornerCandidates 64 true = List.range' 3 58 from by decide]
  apply foldl_fix
  intro s i hi
  rw [List.mem_range'_1] at hi
  exact circle_cornerStep_id r mwh s (by omega) (by omega)

theorem circle64_scan : scanOfClean circle64 = ⟨0, [], []⟩ := by
  unfold scanOfClean
  rw [circle64_smoothed, circle64_closed]
  exact circle_scan _ _

theorem circle_pathLength (r : ℝ) :
    pathLength (scaledCircle r) =
      63 * Real.sqrt (2 * r ^ 2 - 2 * r ^ 2 * Real.cos (Real.pi / 32)) := by
  have hchain : (scaledCircle r).Chain' fun a b =>
      ptDist a b = Real.sqrt (2 * r ^ 2 - 2 * r ^ 2 * Real.cos (Real.pi / 32)) := by
    unfold scaledCircle
    rw [List.chain'_map]
    rw [show (64 : ℕ) = 63 + 1 from by norm_num, List.chain'_range_succ]
    intro m _
    unfold ptDist jsHypot
    simp only
    rw [chordSq r (circAng (m + 1)) (circAng m)]
    rw [show circAng (m + 1) - circAng m = Real.pi / 32 from by
      unfold circAng; push_cast; ring]
  rw [pathLength_of_chain hchain, scaledCircle_length]
  norm_num

theorem circle64_sd : sdOfClean circle64 =
    Real.sqrt (2 * (100 * csm * csm) ^ 2 -
      2 * (100 * csm * csm) ^ 2 * Real.cos (Real.pi / 32)) := by
  unfold sdOfClean
  rw [circle64_smoothed, scaledCircle_length]
  rw [show (64 : ℕ) - 1 = 63 from by norm_num]
  rw [scaledCircle_getD _ (show (0 : ℕ) < 64 from by norm_num),
    scaledCircle_getD _ (show (63 : ℕ) < 64 from by norm_num)]
  unfold ptDist jsHypot
  simp only
  rw [chordSq (100 * csm * csm) (circAng 63) (circAng 0)]
  rw [show circAng 63 - circAng 0 = 2 * Real.pi - Real.pi / 32 from by
    unfold circAng; push_cast; ring, Real.cos_two_pi_sub]

theorem circle64_sd_pos : 0 < sdOfClean circle64 := by
  rw [circle64_sd]
  apply Real.sqrt_pos.mpr
  obtain ⟨hc1, hc2⟩ := csm_bounds
  have hE := cos_pi32_bounds.2
  have hR : (0 : ℝ) < 100 * csm * csm := by nlinarith
  have hX : (0 : ℝ) < (100 * csm * csm) ^ 2 := pow_pos hR 2
  nlinarith [mul_pos hX (show (0 : ℝ) < 1 - Real.cos (Real.pi / 32) from by linarith)]

theorem circle64_straightness :
    pathLength (smoothedOfClean circle64) / sdOfClean circle64 = 63 := by
  have h := circle64_sd_pos
  rw [circle64_sd] at h
  rw [circle64_smoothed, circle_pathLength, circle64_sd]
  rw [mul_div_assoc, div_self (ne_of_gt h), mul_one]

theorem circle_rv (r : ℝ) (hr0 : 0 ≤ r) (hr : r ≤ 100) :
    radiusVarianceOf (scaledCircle r) 0 0 100 = 100 - r := by
  unfold radiusVarianceOf scaledCircle
  rw [List.map_map]
  have hfun : ((fun p : Point => |jsHypot (p.1 - 0) (p.2 - 0) - 100|) ∘
      fun k : ℕ => (r * Real.cos (circAng k), r * Real.sin (circAng k))) =
      fun _ : ℕ => 100 - r := by
    funext k
    simp only [Function.comp]
    have hh : jsHypot (r * Real.cos (circAng k) - 0) (r * Real.sin (circAng k) - 0) = r := by
      unfold jsHypot
      rw [sub_zero, sub_zero]
      have h1 := Real.sin_sq_add_cos_sq (circAng k)
      rw [show (r * Real.cos (circAng k)) ^ 2 + (r * Real.sin (circAng k)) ^ 2 = r ^ 2
        from by nlinarith]
      exact Real.sqrt_sq hr0
    rw [hh, abs_of_nonpos (by linarith), neg_sub]
  rw [hfun, jsSum_eq_sum, List.map_const', List.sum_replicate]
  simp only [List.length_map, List.length_range, List.length_replicate, smul_eq_mul]
  push_cast
  ring

theorem cos_pi16_lt : Real.cos (Real.pi / 16) < 0.9809 := by
  have hpi1 := Real.pi_gt_d4
  have hpi2 := Real.pi_lt_d4
  set x := Real.pi / 16 with hx
  have hx1 : 0.196 < x := by rw [hx]; linarith
  have hx2 : x < 0.19635 := by rw [hx]; linarith
  have hxpos : 0 < x := by linarith
  have hxabs : |x| = x := abs_of_pos hxpos
  have hb := Real.cos_bound (x := x) (by rw [hxabs]; linarith)
  rw [hxabs, abs_sub_le_iff] at hb
  have h2l : 0.196 ^ 2 < x ^ 2 := by nlinarith
  have h2u : x ^ 2 < 0.19635 ^ 2 := by nlinarith
  have h4u : x ^ 4 < 0.19635 ^ 4 := by nlinarith
  nlinarith [hb.1]

theorem csq_bounds : 0.9806 < csm * csm ∧ csm * csm < 0.981 := by
  have h3 := cos_pi16_gt
  have h4 := cos_pi16_lt
  unfold csm
  constructor
  · nlinarith [sq_nonneg (Real.cos (Real.pi / 16) - 0.9806)]
  · nlinarith [sq_nonneg (Real.cos (Real.pi / 16) - 0.9809)]

/-- The Feature Record extracted from the dense 64-point circle. -/
def circleF : Features :=
  { width := 200, height := 200, aspect := 1, isClosed := true,
    straightness := 63, squareness := 1,
    minX := -100, minY := -100, maxX := 100, maxY := 100,
    corners := 0, circularity := csm * csm, cornerAngles := [],
    diagonal := jsHypot 200 200, isConvex := true, rightAngleScore := 0,
    startX := 100 * csm * csm, startY := 0,
    endX := 100 * csm * csm * Real.cos (circAng 63),
    endY := 100 * csm * csm * Real.sin (circAng 63) }

theorem circle64_straightness_field :
    (if 0 < sdOfClean circle64 then
      pathLength (smoothedOfClean circle64) / sdOfClean circle64 else 1) = 63 := by
  rw [if_pos circle64_sd_pos]
  exact circle64_straightness

theorem circle64_circ_field :
    (if isClosedOf circle64 = true ∧ 0 < (widthOf circle64 + heightOf circle64) / 4 then
      1 - radiusVarianceOf (smoothedOfClean circle64)
        ((minXOf circle64 + maxXOf circle64) / 2) ((minYOf circle64 + maxYOf circle64) / 2)
        ((widthOf circle64 + heightOf circle64) / 4) /
        ((widthOf circle64 + heightOf circle64) / 4)
     else 0) = csm * csm := by
  obtain ⟨hc1, hc2⟩ := csm_bounds
  rw [circle64_width, circle64_height, circle64_minX, circle64_minY,
    circle64_maxX, circle64_maxY, circle64_closed]
  rw [if_pos (by norm_num)]
  rw [show ((-100 : ℝ) + 100) / 2 = 0 from by norm_num,
    show ((200 : ℝ) + 200) / 4 = 100 from by norm_num]
  rw [circle64_smoothed, circle_rv (100 * csm * csm) (by nlinarith) (by nlinarith)]
  field_simp
  ring

theorem circle64_circularity_val :
    1 - radiusVarianceOf (smoothedOfClean circle64) 0 0 100 / 100 = csm * csm := by
  rw [circle64_smoothed,
    circle_rv (100 * csm * csm) (by nlinarith [sq_nonneg csm])
      (by nlinarith [csm_bounds.1, csm_bounds.2])]
  field_simp
  ring

theorem circle64_startX : ((smoothedOfClean circle64).getD 0 (0, 0)).1 = 100 * csm * csm := by
  rw [circle64_smoothed, scaledCircle_getD _ (show (0 : ℕ) < 64 from by norm_num)]
  simp [circAng]

theorem circle64_startY : ((smoothedOfClean circle64).getD 0 (0, 0)).2 = 0 := by
  rw [circle64_smoothed, scaledCircle_getD _ (show (0 : ℕ) < 64 from by norm_num)]
  simp [circAng]

theorem circle64_endX :
    ((smoothedOfClean circle64).getD ((smoothedOfClean circle64).length - 1) (0, 0)).1 =
      100 * csm * csm * Real.cos (circAng 63) := by
  rw [circle64_smoothed, scaledCircle_length]
  rw [show (64 : ℕ) - 1 = 63 from by norm_num,
    scaledCircle_getD _ (show (63 : ℕ) < 64 from by norm_num)]

theorem circle64_endY :
    ((smoothedOfClean circle64).getD ((smoothedOfClean circle64).length - 1) (0, 0)).2 =
      100 * csm * csm * Real.sin (circAng 63) := by
  rw [circle64_smoothed, scaledCircle_length]
  rw [show (64 : ℕ) - 1 = 63 from by norm_num,
    scaledCircle_getD _ (show (63 : ℕ) < 64 from by norm_num)]

theorem circle64_extract : extractFeatures circle64 = some circleF := by
  have hlen : circle64.length = 64 := scaledCircle_length 100
  simp only [extractFeatures, circle64_clean]
  rw [if_neg (by rw [hlen]; norm_num), if_neg (by rw [hlen]; norm_num),
    if_neg (by rw [circle64_width, circle64_height]; norm_num)]
  refine congrArg some ?_
  rw [circleF]
  simp only [Features.mk.injEq, circle64_width, circle64_height, circle64_minX,
    circle64_minY, circle64_maxX, circle64_maxY, circle64_closed,
    circle64_straightness_field, circle64_circ_field, circle64_scan,
    circle64_startX, circle64_startY, circle64_endX, circle64_endY]
  norm_num [max_def, min_def, circle64_circularity_val]

theorem circle64_logits :
    logits circleF = [-4 - 2.5 * (csm * csm), 2.6 + 2.5 * (csm * csm),
      -3 - 3 * (csm * csm), 8 - 3 * (csm * csm), -13.3 - 2 * (csm * csm),
      -16.5 + 0.5 * (csm * csm), -13.5 + 0.5 * (csm * csm)] := by
  norm_num [logits, zLine, zCircle, zRect, zSquare, zTriangle, zHexagon,
    zPentagon, circleF, bnum, min_def, max_def]
  refine ⟨by ring, by ring, by ring, by ring⟩

theorem circle64_maxZ : jsMaxList (logits circleF) = 8 - 3 * (csm * csm) := by
  rw [circle64_logits]
  apply jsMaxList_eq
  · simp
  · intro x hx
    obtain ⟨hq1, hq2⟩ := csq_bounds
    simp only [List.mem_cons, List.not_mem_nil, or_false] at hx
    rcases hx with rfl | rfl | rfl | rfl | rfl | rfl | rfl <;> linarith

theorem softmaxProbs_le_inv_sum (zs : List ℝ) (x : ℝ) (hx : x ∈ softmaxProbs zs) :
    x ≤ 1 / max 1e-8 (jsSum (zs.map fun z => Real.exp (z - jsMaxList zs))) := by
  simp only [softmaxProbs] at hx
  obtain ⟨e, he, rfl⟩ := List.mem_map.mp hx
  obtain ⟨z, hz, rfl⟩ := List.mem_map.mp he
  have h1 : Real.exp (z - jsMaxList zs) ≤ 1 := by
    rw [show (1 : ℝ) = Real.exp 0 from Real.exp_zero.symm]
    exact Real.exp_le_exp.mpr (by linarith [le_jsMaxList hz])
  have hden : (0 : ℝ) < max 1e-8 (jsSum (zs.map fun z => Real.exp (z - jsMaxList zs))) :=
    lt_max_iff.mpr (Or.inl (by norm_num))
  exact (div_le_div_right hden).mpr h1

theorem circle64_probs_low : jsMaxList (softmaxProbs (logits circleF)) < 0.6 := by
  obtain ⟨hq1, hq2⟩ := csq_bounds
  have hsum : (1.99 : ℝ) ≤
      jsSum ((logits circleF).map fun z => Real.exp (z - jsMaxList (logits circleF))) := by
    rw [circle64_maxZ, circle64_logits, jsSum_eq_sum]
    simp only [List.map_cons, List.map_nil, List.sum_cons, List.sum_nil]
    have h2 : (0.99 : ℝ) ≤ Real.exp (2.6 + 2.5 * (csm * csm) - (8 - 3 * (csm * csm))) := by
      have := Real.add_one_le_exp (2.6 + 2.5 * (csm * csm) - (8 - 3 * (csm * csm)))
      linarith
    have h4 : Real.exp (8 - 3 * (csm * csm) - (8 - 3 * (csm * csm))) = 1 := by
      rw [sub_self, Real.exp_zero]
    linarith [Real.exp_pos (-4 - 2.5 * (csm * csm) - (8 - 3 * (csm * csm))),
      Real.exp_pos (-3 - 3 * (csm * csm) - (8 - 3 * (csm * csm))),
      Real.exp_pos (-13.3 - 2 * (csm * csm) - (8 - 3 * (csm * csm))),
      Real.exp_pos (-16.5 + 0.5 * (csm * csm) - (8 - 3 * (csm * csm))),
      Real.exp_pos (-13.5 + 0.5 * (csm * csm) - (8 - 3 * (csm * csm)))]
  refine jsMaxList_lt (softmaxProbs_logits_ne_nil circleF) ?_
  intro x hx
  have hb := softmaxProbs_le_inv_sum (logits circleF) x hx
  have hden : max 1e-8 (jsSum ((logits circleF).map fun z =>
      Real.exp (z - jsMaxList (logits circleF)))) =
      jsSum ((logits circleF).map fun z => Real.exp (z - jsMaxList (logits circleF))) :=
    max_eq_right (by linarith)
  rw [hden] at hb
  have hfin : 1 / jsSum ((logits circleF).map fun z =>
      Real.exp (z - jsMaxList (logits circleF))) < 0.6 := by
    rw [div_lt_iff (by linarith)]
    linarith
  linarith

theorem circle64_predict : predictProbs circleF = none := by
  unfold predictProbs
  rw [if_pos circle64_probs_low]

theorem circle64_heur : heuristicRecognize circle64 = some (.circle 0 0 100) := by
  have hcc : (0.85 : ℝ) < circleF.circularity := by
    have := csq_bounds.1
    rw [show circleF.circularity = csm * csm from rfl]
    linarith
  simp only [heuristicRecognize, circle64_extract]
  rw [if_neg (by simp [circleF]), if_pos (show circleF.isClosed = true from rfl),
    if_neg (by simp [circleF]), if_neg (by simp [circleF]), if_neg (by simp [circleF]),
    if_neg (by simp [circleF]), if_neg (by simp [circleF]),
    if_pos ⟨hcc, show circleF.corners < 2 from by norm_num [circleF]⟩]
  simp only [circleF, Option.some.injEq]
  norm_num

theorem circle64_recognize :
    recognizeShape true circle64 = some ⟨"circle", 0.5, some (.circle 0 0 100)⟩ := by
  unfold recognizeShape
  rw [if_neg (by simp)]
  simp only [circle64_extract, circle64_predict]
  unfold heurResult
  rw [circle64_heur]
  rfl

/-- C1: for the dense 64-point stroke tracing the radius-100 circle centred
at the origin, feature extraction succeeds with circularity above 0.95 and
zero corners, recognizeShape classifies the stroke as a circle, and the
canonical circle it returns has its radius within 1 percent of 100 (here the
radius is exactly 100). -/
theorem circle64_recognized_as_circle :
    ∃ f : Features, extractFeatures circle64 = some f ∧
      0.95 < f.circularity ∧ f.corners = 0 ∧
      ∃ res : RecResult, recognizeShape true circle64 = some res ∧
        res.type = "circle" ∧
        ∃ x y rad : ℝ, res.features = some (Shape.circle x y rad) ∧
          |rad - 100| ≤ 0.01 * 100 := by
  refine ⟨circleF, circle64_extract, ?_, rfl,
    ⟨"circle", 0.5, some (.circle 0 0 100)⟩, circle64_recognize, rfl,
    0, 0, 100, rfl, by norm_num⟩
  have := csq_bounds.1
  rw [show circleF.circularity = csm * csm from rfl]
  linarith

theorem heuristicRecognize_spec_witness :
    heuristicRecognize circle64 =
      some (.circle (circleF.minX + circleF.width / 2)
        (circleF.minY + circleF.height / 2) (min circleF.width circleF.height / 2)) :=
  heuristicRecognize_spec.1 circle64 circleF circle64_extract rfl
    (by rw [show circleF.circularity = csm * csm from rfl]; linarith [csq_bounds.1])
    (by norm_num [circleF])

end
